import Mathlib

/-!
# Squinewave oscillator: verification of the spec against the code

Shallow embedding of the squinewave oscillator from
`src/supercollider/plugins/Squine/Squine.cpp` (the final revision, with the
`input_param` smoothing helper and the separate `Max_Sync_Freq` ceiling).
C doubles are modelled as rationals; the output cosine is kept symbolic
(the code only ever writes `cos(pi * warped_phase)` or the flat values).
The two transcendental construction constants (`pi` and
`Max_Sync_Freq = sr / (1.6667 * log Min_Sweep)`) and the libm `cos` used in
the hard-sync frequency blend are carried as parameter fields whose
provable side conditions are recorded in `Params.valid`.
-/

namespace Squinewave

/-- An output sample, kept symbolic in the cosine: the code writes
`cos(pi * warped_phase)` in sweep segments, `-1.0` on the flat low segment
and `1.0` on the flat high segment. -/
inductive Out where
  | cosw (w : ℚ)
  | negOne
  | posOne
deriving DecidableEq, Repr

/-- The oscillator's mutable per-voice state (fields of class `Squine`). -/
structure OscState where
  phase : ℚ
  warped_phase : ℚ
  hardsync_phase : ℚ
  hardsync_inc : ℚ
deriving DecidableEq, Repr

/-- Session constants computed once at construction.
`Max_Sync_Freq` is `sr / (1.6667 * log Min_Sweep)` in the source; since
`log` is transcendental it is kept abstract here, with the inequalities it
satisfies recorded in `Params.valid`.  `pi_c` models the `pi` constant and
`cosfn` models libm `cos` (used only in the hard-sync frequency blend). -/
structure Params where
  sr : ℚ
  Min_Sweep : ℚ
  Maxphase_By_sr : ℚ
  Max_Warp_Freq : ℚ
  Max_Sync_Freq : ℚ
  Max_Warp : ℚ
  pi_c : ℚ
  cosfn : ℚ → ℚ

/-- Construction relationships from `Squine::Squine`:
`Min_Sweep` lands in `[4, 100]`, `Maxphase_By_sr = 2/sr`,
`Max_Warp_Freq = sr/(2*Min_Sweep)`, `Max_Warp = 1/Min_Sweep`.
For the abstract constants: `Max_Warp_Freq < Max_Sync_Freq ≤ sr` holds
because `1 < 1.6667 * log M < 2 * M` for all `M ∈ [4, 100]`, `pi_c > 0`,
and libm `cos` returns values in `[-1, 1]`. -/
def Params.valid (P : Params) : Prop :=
  0 < P.sr ∧ 4 ≤ P.Min_Sweep ∧ P.Min_Sweep ≤ 100 ∧
  P.Maxphase_By_sr = 2 / P.sr ∧
  P.Max_Warp_Freq = P.sr / (2 * P.Min_Sweep) ∧
  P.Max_Warp = 1 / P.Min_Sweep ∧
  P.Max_Warp_Freq < P.Max_Sync_Freq ∧ P.Max_Sync_Freq ≤ P.sr ∧
  0 < P.pi_c ∧
  (∀ x, -1 ≤ P.cosfn x ∧ P.cosfn x ≤ 1)

/-- `Clamp(x, minval, maxval)` from the source (finite values only; the
non-finite behaviour is modelled separately on `FVal` below). -/
def Clamp (x minval maxval : ℚ) : ℚ :=
  if minval ≤ x ∧ x ≤ maxval then x else if x < minval then minval else maxval

/-- `GET_FREQ(x) = fmax(x, 0.0)`. -/
def GET_FREQ (x : ℚ) : ℚ := max x 0

/-- `GET_CLIP(x) = 1.0 - Clamp(x, 0.0, 1.0)`. -/
def GET_CLIP (x : ℚ) : ℚ := 1 - Clamp x 0 1

/-- `GET_SKEW(x) = 1.0 - Clamp(x, -1.0, 1.0)`. -/
def GET_SKEW (x : ℚ) : ℚ := 1 - Clamp x (-1) 1

/-- `fmin(num/den, cap)` as the C doubles compute it.  At every call site
in the source `num ≥ 0`, and `den = 0` can only happen with `num = 0`
(sweep lengths are `≥ min_sweep = phase_inc * Min_Sweep`): there
`0.0/0.0` is NaN and `fmin(NaN, cap) = cap`; with `num > 0`, `num/0.0` is
`+Inf` and `fmin(+Inf, cap) = cap` as well. -/
def divmin (num den cap : ℚ) : ℚ :=
  if den = 0 then cap else min (num / den) cap

/-- `Squine::hardsync_init`. -/
def hardsync_init (P : Params) (freq : ℚ) (s : OscState) : OscState :=
  if s.hardsync_phase ≠ 0 then s
  else if s.warped_phase = 2 then { s with phase := 2 }
  else if P.Max_Sync_Freq < freq then s
  else { s with hardsync_inc := P.pi_c / P.Min_Sweep,
                hardsync_phase := P.pi_c / P.Min_Sweep * (1 / 2) }

/-- The hard-sync frequency blend: while a sweep is active the sample's
frequency is pushed toward `Max_Sync_Freq` by a half-raised-cosine of
`hardsync_phase` (`freq += 0.5*(1 - cos(hardsync_phase))*(Max_Sync_Freq - freq)`). -/
def hsFreq (P : Params) (f : ℚ) (s : OscState) : ℚ :=
  if s.hardsync_phase ≠ 0 then
    f + 1 / 2 * (1 - P.cosfn s.hardsync_phase) * (P.Max_Sync_Freq - f)
  else f

/-- The hard-sync phase advance: `hardsync_phase += hardsync_inc`, clamped
at `pi` with `hardsync_inc` zeroed once past it. -/
def hsAdvance (P : Params) (s : OscState) : OscState :=
  if s.hardsync_phase ≠ 0 then
    if P.pi_c < s.hardsync_phase + s.hardsync_inc then
      { s with hardsync_phase := P.pi_c, hardsync_inc := 0 }
    else { s with hardsync_phase := s.hardsync_phase + s.hardsync_inc }
  else s

/-- The degenerate pure-sine branch (`freq >= Max_Warp_Freq`):
output `cos(pi*warped_phase)`, set `phase = warped_phase`, then
`warped_phase += phase_inc`. -/
def pureStep (phase_inc : ℚ) (s : OscState) : Out × OscState :=
  (Out.cosw s.warped_phase,
   { s with phase := s.warped_phase, warped_phase := s.warped_phase + phase_inc })

/-- The four-segment logic of `Squine::next` (the `freq < Max_Warp_Freq`
branch), up to but not including the unconditional `phase += phase_inc`
and the wraparound block. -/
def segmentStep (P : Params) (clip skew phase_inc : ℚ) (s : OscState) : Out × OscState :=
  let ms := phase_inc * P.Min_Sweep
  let mid := Clamp skew ms (2 - ms)
  if s.warped_phase < 1 ∨ (s.warped_phase = 1 ∧ s.phase < mid) then
    if s.warped_phase < 1 then
      let sl := max (clip * mid) ms
      let o := Out.cosw s.warped_phase
      let w := s.warped_phase + divmin phase_inc sl P.Max_Warp
      if 1 < w then
        let fl := mid - sl
        let po := (w - 1) * sl
        let p := mid - fl + po - phase_inc
        if po ≤ fl then (o, { s with phase := p, warped_phase := 1 })
        else
          let nsl := max (clip * (2 - mid)) ms
          (o, { s with phase := p, warped_phase := 1 + (po - fl) / nsl })
      else (o, { s with warped_phase := w })
    else (Out.negOne, { s with warped_phase := 1 })
  else
    if s.warped_phase < 2 then
      let sl := max (clip * (2 - mid)) ms
      let w0 := if s.warped_phase = 1
                then 1 + divmin (min (s.phase - mid) phase_inc) sl P.Max_Warp
                else s.warped_phase
      let o := Out.cosw w0
      let w := w0 + divmin phase_inc sl P.Max_Warp
      if 2 < w then
        let fl := 2 - (mid + sl)
        let po := (w - 2) * sl
        let p := 2 - fl + po - phase_inc
        if po ≤ fl then (o, { s with phase := p, warped_phase := 2 })
        else
          let nsl := max (clip * mid) ms
          (o, { s with phase := p, warped_phase := 2 + (po - fl) / nsl })
      else (o, { s with warped_phase := w })
    else (Out.posOne, { s with warped_phase := 2 })

/-- The state after the trigger check at the top of the loop body:
`hardsync_init` runs iff the sync index equals the sample index. -/
def armState (P : Params) (fin : ℚ) (trig : Bool) (s : OscState) : OscState :=
  if trig then hardsync_init P (GET_FREQ fin) s else s

/-- The effective frequency driving this sample's phase advance: the
resolved input frequency, blended toward `Max_Sync_Freq` while a
hard-sync sweep is active. -/
def effFreq (P : Params) (fin : ℚ) (trig : Bool) (s : OscState) : ℚ :=
  hsFreq P (GET_FREQ fin) (armState P fin trig s)

/-- This sample's `phase_inc = Maxphase_By_sr * freq` (effective). -/
def effInc (P : Params) (fin : ℚ) (trig : Bool) (s : OscState) : ℚ :=
  P.Maxphase_By_sr * effFreq P fin trig s

/-- The state after trigger handling and the hard-sync phase advance. -/
def armA (P : Params) (fin : ℚ) (trig : Bool) (s : OscState) : OscState :=
  hsAdvance P (armState P fin trig s)

/-- Everything `Squine::next` does for one sample before the wraparound
check: resolve inputs, arm hard sync on a trigger, blend and advance the
hard-sync sweep, run the pure-sine or segment logic, and add `phase_inc`
to `phase`.  Returns the output sample, the state, and the effective
(post-blend) frequency that the wraparound block will re-test. -/
def preWrap (P : Params) (fin cin kin : ℚ) (trig : Bool) (s : OscState) :
    Out × OscState × ℚ :=
  let s1 := armState P fin trig s
  let f2 := hsFreq P (GET_FREQ fin) s1
  let s2 := hsAdvance P s1
  let phase_inc := P.Maxphase_By_sr * f2
  let r := if P.Max_Warp_Freq ≤ f2 then pureStep phase_inc s2
           else segmentStep P (GET_CLIP cin) (GET_SKEW kin) phase_inc s2
  (r.1, { r.2 with phase := r.2.phase + phase_inc }, f2)

/-- The wraparound block at the bottom of the per-sample loop: when both
`warped_phase >= 2` and `phase >= 2`, either finish an active hard-sync
sweep (full reset, request a re-search of the sync input) or wrap `phase`,
guard against wild aliasing, and rebase `warped_phase` into the new
cycle's first sweep.  The `Bool` reports the sync re-search request. -/
def wrapPhase (P : Params) (f2 clip skew : ℚ) (s : OscState) : OscState × Bool :=
  if 2 ≤ s.warped_phase ∧ 2 ≤ s.phase then
    if s.hardsync_phase ≠ 0 then
      (⟨0, 0, 0, 0⟩, true)
    else
      let phase_inc := P.Maxphase_By_sr * f2
      let p0 := s.phase - 2
      let p := if phase_inc < p0 then phase_inc * (1 / 2) else p0
      if f2 < P.Max_Warp_Freq then
        let ms := phase_inc * P.Min_Sweep
        let mid := Clamp skew ms (2 - ms)
        let nsl := max (clip * mid) ms
        ({ s with phase := p, warped_phase := divmin p nsl P.Max_Warp }, false)
      else ({ s with phase := p, warped_phase := p }, false)
  else (s, false)

/-- One full iteration of the loop in `Squine::next`: per-sample advance
plus wraparound handling.  Returns (output sample, new state, sync
re-search request). -/
def step (P : Params) (fin cin kin : ℚ) (trig : Bool) (s : OscState) :
    Out × OscState × Bool :=
  let r := preWrap P fin cin kin trig s
  let w := wrapPhase P r.2.2 (GET_CLIP cin) (GET_SKEW kin) r.2.1
  (r.1, w.1, w.2)

/-- Scan helper for `find_sync`, structurally recursive on the number of
remaining samples. -/
def find_sync_aux (sig : List ℚ) : ℕ → ℕ → Int
  | _, 0 => -1
  | first, rem + 1 =>
      if 1 ≤ sig.getD first 0 then (first : Int)
      else find_sync_aux sig (first + 1) rem

/-- `find_sync(sync_sig, first, last)`: index of the first sample in
`[first, last)` whose value is `>= 1.0`, else `-1`. -/
def find_sync (sig : List ℚ) (first last : ℕ) : Int :=
  find_sync_aux sig first (last - first)

/-- The sample loop of `Squine::next` with audio-rate sync: iterates
`step`, threading the pending sync index and re-searching the sync signal
from the current sample after a completed hard sync.  The extra `ℕ`
argument is the remaining sample count (`n - i`). -/
def nextLoop (P : Params) (ins : List (ℚ × ℚ × ℚ)) (σ : List ℚ) (n : ℕ) :
    ℕ → ℕ → Int → OscState → List Out × OscState
  | _, 0, _, s => ([], s)
  | i, rem + 1, sync, s =>
      let t := ins.getD i (0, 0, 0)
      let r := step P t.1 t.2.1 t.2.2 ((i : Int) == sync) s
      let sync' := if r.2.2 then find_sync σ i n else sync
      let rest := nextLoop P ins σ n (i + 1) rem sync' r.2.1
      (r.1 :: rest.1, rest.2)

/-- One whole process block of `Squine::next` (audio-rate inputs and
audio-rate sync): initial sync search over the block, then the loop. -/
def nextBlock (P : Params) (ins : List (ℚ × ℚ × ℚ)) (σ : List ℚ) (n : ℕ)
    (s : OscState) : List Out × OscState :=
  nextLoop P ins σ n 0 n (find_sync σ 0 n) s

/-! ## Phase seeding (`Squine::init_phase` and the constructor) -/

/-- C `fmod` for the arguments that occur here (`x > 2`, `y = 2`):
`x - y * trunc(x/y)`, which for positive arguments is `x - y * ⌊x/y⌋`. -/
def fmodQ (x y : ℚ) : ℚ := x - y * (⌊x / y⌋ : ℚ)

/-- `Squine::init_phase`: invert the four-segment mapping, producing the
`(phase, warped_phase)` pair for a seed.  Returns the pair
(phase first, warped second). -/
def init_phase (P : Params) (phase_in freq clip skew : ℚ) : ℚ × ℚ :=
  let phase_inc := P.Maxphase_By_sr * freq
  let ms := phase_inc * P.Min_Sweep
  let mid := Clamp skew ms (2 - ms)
  let w0 := if phase_in < 0 then (5 : ℚ) / 4 else phase_in
  let w := if 2 < w0 then fmodQ w0 2 else w0
  if w < 1 then
    let sl := max (clip * mid) ms
    if w < 1 / 2 then (sl * (w * 2), w * 2)
    else
      let fl := mid - sl
      (sl + fl * ((w - 1 / 2) * 2), 1)
  else
    let sl := max (clip * (2 - mid)) ms
    if w < 3 / 2 then (mid + sl * ((w - 1) * 2), 1 + (w - 1) * 2)
    else
      let fl := 2 - (mid + sl)
      (mid + sl + fl * ((w - 3 / 2) * 2), 2)

/-- The constructor's seed handling (`Squine::Squine`, final revision):
a zero seed leaves the phases alone; any seed outside `[0, 2]` — negative
or greater than 2 — is replaced by `1.25` before `init_phase` runs. -/
def seedPhase (P : Params) (startphase fin cin kin : ℚ) : ℚ × ℚ :=
  let sp := if startphase < 0 ∨ 2 < startphase then (5 : ℚ) / 4 else startphase
  init_phase P sp (GET_FREQ fin) (GET_CLIP cin) (GET_SKEW kin)

/-! ## The Parameter Feed (`Squine::input_param`) -/

/-- The `input_param` helper: either an audio-rate buffer (`host_sig`
present) or a block-rate value smoothed by a linear ramp. -/
structure InputParam where
  host_sig : Option (List ℚ)
  target : ℚ
  value : ℚ
  change : ℚ
deriving DecidableEq, Repr

/-- `input_param::check_finished`: snap to the target once the remaining
distance is within one increment, zeroing the increment. -/
def checkFinished (p : InputParam) : InputParam :=
  if p.change ≠ 0 ∧ |p.value - p.target| ≤ |p.change| then
    { p with value := p.target, change := 0 }
  else p

/-- `input_param::set_target`. -/
def setTarget (val changerate : ℚ) (p : InputParam) : InputParam :=
  checkFinished { p with target := val, change := (val - p.value) * changerate }

/-- `input_param::init` (construction): remember the buffer for an
audio-rate source, else record the scalar as the current value. -/
def ipInit (sig : List ℚ) (is_audiorate : Bool) (p : InputParam) : InputParam :=
  if is_audiorate then { p with host_sig := some sig }
  else { p with host_sig := none, value := sig.getD 0 0 }

/-- `input_param::reinit` (start of each process block). -/
def reinit (sig : List ℚ) (sample_count : ℕ) (p : InputParam) : InputParam :=
  match p.host_sig with
  | some _ => { p with host_sig := some sig }
  | none => setTarget (sig.getD 0 0) (1 / (sample_count : ℚ)) p

/-- `input_param::get_next(n)`: per-sample read; returns the value and the
updated feed. -/
def getNext (n : ℕ) (p : InputParam) : ℚ × InputParam :=
  match p.host_sig with
  | some buf => (buf.getD n 0, { p with value := buf.getD n 0 })
  | none =>
      let p1 := checkFinished { p with value := p.value + p.change }
      (p1.value, p1)

/-- Iterate `get_next` (block-rate mode ignores the sample index). -/
def getNextN : ℕ → InputParam → InputParam
  | 0, p => p
  | k + 1, p => getNextN k (getNext 0 p).2

/-! ## `Min_Sweep` configuration (constructors of both revisions) -/

/-- The final (supercollider) revision's `Min_Sweep` setup: range check
against the literal `[4, 100]`; above-range input is clamped to `100`;
below-range input (including unset/zero) is replaced by
`(int32_t)Clamp(10*drand()+5, 5.0, 15)` where `drand() ∈ [0, 1)`. -/
def minSweepInitSC (supplied d : ℚ) : ℚ :=
  if supplied < 4 ∨ 100 < supplied then
    if supplied < 4 then ((⌊Clamp (10 * d + 5) 5 15⌋ : ℤ) : ℚ) else 100
  else supplied

/-- The earlier (plugins) revision's `Min_Sweep` setup: range check
against `[4, sr * 0.01]`, with any out-of-range input replaced by the
randomized default. -/
def minSweepInitKr (supplied d sr : ℚ) : ℚ :=
  if supplied < 4 ∨ sr * (1 / 100) < supplied then
    ((⌊Clamp (10 * d + 5) 5 15⌋ : ℤ) : ℚ)
  else supplied

/-! ## Non-finite input handling

IEEE-754 doubles extended with the special values, to model how the input
transforms treat `Inf` and `NaN`.  Only comparisons, `fmax` and a
subtraction from 1 are involved, so the special-value behaviour is exact:
any comparison with NaN is false, and `fmax` returns the other operand
when one argument is NaN. -/

/-- A double: a finite value, an infinity, or NaN. -/
inductive FVal where
  | fin (q : ℚ)
  | pinf
  | ninf
  | nan
deriving DecidableEq, Repr

/-- `x >= c` on doubles (false whenever `x` is NaN). -/
def fge : FVal → ℚ → Bool
  | .fin q, c => c ≤ q
  | .pinf, _ => true
  | .ninf, _ => false
  | .nan, _ => false

/-- `x <= c` on doubles (false whenever `x` is NaN). -/
def fle : FVal → ℚ → Bool
  | .fin q, c => q ≤ c
  | .pinf, _ => false
  | .ninf, _ => true
  | .nan, _ => false

/-- `x < c` on doubles (false whenever `x` is NaN). -/
def flt : FVal → ℚ → Bool
  | .fin q, c => q < c
  | .pinf, _ => false
  | .ninf, _ => true
  | .nan, _ => false

/-- `Clamp` evaluated on a double with finite bounds, following the
source's comparison structure. -/
def vClamp (x : FVal) (minval maxval : ℚ) : FVal :=
  if fge x minval ∧ fle x maxval then x
  else if flt x minval then .fin minval else .fin maxval

/-- `1.0 - x` on doubles. -/
def oneSub : FVal → FVal
  | .fin q => .fin (1 - q)
  | .pinf => .ninf
  | .ninf => .pinf
  | .nan => .nan

/-- C `fmax`: NaN yields the other operand; infinities compare normally. -/
def vFmax : FVal → FVal → FVal
  | .nan, y => y
  | x, .nan => x
  | .pinf, _ => .pinf
  | _, .pinf => .pinf
  | .ninf, y => y
  | x, .ninf => x
  | .fin a, .fin b => .fin (max a b)

/-- `GET_FREQ` on doubles: `fmax(x, 0.0)`. -/
def vGET_FREQ (x : FVal) : FVal := vFmax x (.fin 0)

/-- `GET_CLIP` on doubles: `1.0 - Clamp(x, 0.0, 1.0)`. -/
def vGET_CLIP (x : FVal) : FVal := oneSub (vClamp x 0 1)

/-- `GET_SKEW` on doubles: `1.0 - Clamp(x, -1.0, 1.0)`. -/
def vGET_SKEW (x : FVal) : FVal := oneSub (vClamp x (-1) 1)

/-- Finiteness of a double. -/
def FVal.isFinite : FVal → Bool
  | .fin _ => true
  | _ => false

/-! ## Concrete test parameters

A representative construction at `sr = 48000`, `Min_Sweep = 10`:
`Maxphase_By_sr = 1/24000`, `Max_Warp_Freq = 2400`, `Max_Warp = 1/10`.
`Max_Sync_Freq` is `48000 / (1.6667 * log 10) ≈ 12507` in the source; any
value satisfying the `valid` inequalities serves, `12000` is used.  The
`cosfn` model is constant `1` (within the libm range; it only matters
while a hard-sync sweep is active). -/
def P0 : Params :=
  { sr := 48000, Min_Sweep := 10, Maxphase_By_sr := 1 / 24000,
    Max_Warp_Freq := 2400, Max_Sync_Freq := 12000, Max_Warp := 1 / 10,
    pi_c := 314159 / 100000, cosfn := fun _ => 1 }

theorem P0_valid : P0.valid := by
  refine ⟨?_, ?_, ?_, ?_, ?_, ?_, ?_, ?_, ?_, fun x => ⟨?_, ?_⟩⟩ <;> norm_num [P0]

/-! ## C8: non-finite input saturation -/

/-- Claim C8, as stated, is false: a `+Inf` frequency input passes
`GET_FREQ = fmax(x, 0.0)` unchanged (the transform has no upper clamp),
so a non-finite value does propagate past the input transforms. -/
theorem C8_nonfinite_cex :
    vGET_FREQ FVal.pinf = FVal.pinf ∧ (vGET_FREQ FVal.pinf).isFinite = false := by
  decide

/-- Claim C8 (amended): for clip and skew, `+Inf` and `NaN` inputs are
routed to the clamp's maximum bound (post-transform `1 - 1 = 0`) and
`-Inf` to the minimum bound (post-transform `1` resp. `2`), so no
non-finite clip/skew value ever propagates; `GET_FREQ` maps `NaN` and
`-Inf` to `0` but passes `+Inf` through unchanged. -/
theorem C8_nonfinite_amended :
    (vGET_CLIP FVal.pinf = FVal.fin 0 ∧ vGET_CLIP FVal.nan = FVal.fin 0 ∧
       vGET_CLIP FVal.ninf = FVal.fin 1) ∧
    (vGET_SKEW FVal.pinf = FVal.fin 0 ∧ vGET_SKEW FVal.nan = FVal.fin 0 ∧
       vGET_SKEW FVal.ninf = FVal.fin 2) ∧
    (vGET_FREQ FVal.nan = FVal.fin 0 ∧ vGET_FREQ FVal.ninf = FVal.fin 0 ∧
       vGET_FREQ FVal.pinf = FVal.pinf) ∧
    (∀ x : FVal, (vGET_CLIP x).isFinite ∧ (vGET_SKEW x).isFinite) := by
  have hc : ∀ x : FVal, (vGET_CLIP x).isFinite ∧ (vGET_SKEW x).isFinite := by
    intro x
    cases x <;>
      · constructor <;>
          · simp only [vGET_CLIP, vGET_SKEW, vClamp, fge, fle, flt, oneSub]
            split_ifs <;> simp_all [oneSub, FVal.isFinite]
  refine ⟨?_, ?_, ?_, hc⟩ <;>
    · refine ⟨?_, ?_, ?_⟩ <;>
        norm_num [vGET_CLIP, vGET_SKEW, vGET_FREQ, vClamp, vFmax, fge, fle,
          flt, oneSub]

/-! ## C9: Min_Sweep configuration -/

/-- Claim C9, as stated, is false for the final revision: the range check
is against the literal `100`, not `1%` of the sample rate, and an
above-range value is clamped to `100` rather than replaced by a
randomized default in `[5, 15]`.  At `sr = 48000` (1% = 480) the supplied
value `481` is out of the claimed range yet is stored as `100`; at
`sr = 5000` (1% = 50) the supplied value `70` is kept even though it is
outside `[4, 50]` (the check does not consult the sample rate at all). -/
theorem C9_min_sweep_cex :
    minSweepInitSC 481 0 = 100 ∧ ¬((5 : ℚ) ≤ 100 ∧ (100 : ℚ) ≤ 15) ∧
    ¬((481 : ℚ) ≤ 48000 * (1 / 100)) ∧
    minSweepInitSC 70 0 = 70 ∧ ¬((70 : ℚ) ≤ 5000 * (1 / 100)) := by
  exact ⟨by norm_num [minSweepInitSC], by norm_num, by norm_num,
    by norm_num [minSweepInitSC], by norm_num⟩

/-- Claim C9 (amended): in the final revision the stored `Min_Sweep`
lands in `[4, 100]`: a supplied value already in `[4, 100]` is kept, a
value above `100` is clamped to `100` (not randomized), and only a value
below `4` (including unset/zero) is replaced by a randomized integer
default, which lands in `[5, 14]`.  (The earlier revision checked
`[4, sr * 0.01]` and randomized in both directions.) -/
theorem C9_min_sweep_amended (supplied d : ℚ) (h0 : 0 ≤ d) (h1 : d < 1) :
    (4 ≤ minSweepInitSC supplied d ∧ minSweepInitSC supplied d ≤ 100) ∧
    (supplied < 4 →
      ∃ k : ℤ, minSweepInitSC supplied d = (k : ℚ) ∧ 5 ≤ k ∧ k ≤ 14) ∧
    (100 < supplied → minSweepInitSC supplied d = 100) ∧
    (4 ≤ supplied → supplied ≤ 100 → minSweepInitSC supplied d = supplied) := by
  have hcl : Clamp (10 * d + 5) 5 15 = 10 * d + 5 := by
    unfold Clamp
    rw [if_pos ⟨by linarith, by linarith⟩]
  have hfl5 : (5 : ℤ) ≤ ⌊(10 : ℚ) * d + 5⌋ := by
    rw [Int.le_floor]; push_cast; linarith
  have hfl14 : ⌊(10 : ℚ) * d + 5⌋ ≤ 14 := by
    rw [Int.floor_le_iff]
    push_cast
    linarith
  unfold minSweepInitSC
  split_ifs with hrange hlow
  · refine ⟨⟨?_, ?_⟩, fun _ => ⟨⌊(10 : ℚ) * d + 5⌋, by rw [hcl], hfl5, hfl14⟩,
      fun hhi => absurd hhi (by linarith), fun h4 _ => absurd hlow (by linarith)⟩
    · rw [hcl]
      have : (5 : ℚ) ≤ (⌊(10 : ℚ) * d + 5⌋ : ℚ) := by exact_mod_cast hfl5
      linarith
    · rw [hcl]
      have : ((⌊(10 : ℚ) * d + 5⌋ : ℤ) : ℚ) ≤ 14 := by exact_mod_cast hfl14
      linarith
  · rcases hrange with h | h
    · exact absurd h hlow
    · exact ⟨⟨by norm_num, le_refl _⟩, fun hl => absurd hl hlow,
        fun _ => rfl, fun _ hle => absurd h (by linarith)⟩
  · push_neg at hrange
    exact ⟨⟨hrange.1, hrange.2⟩, fun hl => absurd hl (by linarith [hrange.1]),
      fun hh => absurd hh (by linarith [hrange.2]), fun _ _ => rfl⟩

/-- Witness for C9 (amended) at `supplied = 0`, `d = 1/2`: the unset
value is replaced by the randomized integer `10`. -/
theorem C9_min_sweep_witness :
    (0 : ℚ) ≤ 1 / 2 ∧ (1 / 2 : ℚ) < 1 ∧
    ∃ k : ℤ, minSweepInitSC 0 (1 / 2) = (k : ℚ) ∧ 5 ≤ k ∧ k ≤ 14 := by
  refine ⟨by norm_num, by norm_num, ?_⟩
  exact (C9_min_sweep_amended 0 (1 / 2) (by norm_num) (by norm_num)).2.1 (by norm_num)

/-! ## C6: phase seeding -/

/-- Claim C6, as stated, is false: the final revision's constructor
replaces any seed greater than 2 with `1.25` before calling `init_phase`
(so its internal modulo-2 fold is unreachable from construction).  Seed
`2.5` lands at `(phase, warped) = (3/2, 3/2)`, whereas folding `2.5`
modulo 2 to `0.5` would land at `(1, 1)`. -/
theorem C6_phase_seeding_cex :
    seedPhase P0 (5 / 2) 100 0 0 = (3 / 2, 3 / 2) ∧
    fmodQ (5 / 2) 2 = 1 / 2 ∧
    init_phase P0 (1 / 2) (GET_FREQ 100) (GET_CLIP 0) (GET_SKEW 0) = (1, 1) ∧
    ((3 / 2 : ℚ), (3 / 2 : ℚ)) ≠ ((1 : ℚ), (1 : ℚ)) := by
  have hfl : ⌊(5 : ℚ) / 2 / 2⌋ = 1 := by
    rw [Int.floor_eq_iff]
    norm_num
  refine ⟨?_, ?_, ?_, by norm_num⟩
  · norm_num [seedPhase, init_phase, GET_FREQ, GET_CLIP, GET_SKEW, Clamp, P0]
  · norm_num [fmodQ, hfl]
  · norm_num [init_phase, GET_FREQ, GET_CLIP, GET_SKEW, Clamp, P0]

/-- The `min_sweep` quantity `phase_inc * Min_Sweep` as a function of the
resolved frequency. -/
def msQ (P : Params) (freq : ℚ) : ℚ := P.Maxphase_By_sr * freq * P.Min_Sweep

/-- The `midpoint` of the cycle as computed throughout the source:
`Clamp(skew, min_sweep, 2 - min_sweep)`. -/
def midQ (P : Params) (freq skew : ℚ) : ℚ :=
  Clamp skew (msQ P freq) (2 - msQ P freq)

/-- The first-half sweep length `max(clip * midpoint, min_sweep)`. -/
def sweep1 (P : Params) (freq clip skew : ℚ) : ℚ :=
  max (clip * midQ P freq skew) (msQ P freq)

/-- The second-half sweep length `max(clip * (2 - midpoint), min_sweep)`. -/
def sweep2 (P : Params) (freq clip skew : ℚ) : ℚ :=
  max (clip * (2 - midQ P freq skew)) (msQ P freq)

/-- Claim C6 (amended): for every seed supplied at construction (a zero
seed skips seeding entirely), the constructor first replaces any seed
outside `[0, 2]` — negative ("start just after an up-crossing") or
greater than 2 alike — with `1.25` (the modulo-2 fold inside `init_phase`
is unreachable from construction), and `init_phase` then inverts the
four-segment mapping: seeds in a sweep half (`[0, 1/2)` or `[1, 3/2)`)
are scaled into that sweep, seeds in a flat half (`[1/2, 1)` or
`[3/2, 2]`) snap `warped_phase` to `1` or `2` with `phase` interpolated
across the flat length. -/
theorem C6_phase_seeding_amended (P : Params) (seed fq cl sk f c k : ℚ) :
    (seed < 0 ∨ 2 < seed →
      seedPhase P seed f c k =
        init_phase P (5 / 4) (GET_FREQ f) (GET_CLIP c) (GET_SKEW k)) ∧
    (¬(seed < 0 ∨ 2 < seed) →
      seedPhase P seed f c k =
        init_phase P seed (GET_FREQ f) (GET_CLIP c) (GET_SKEW k)) ∧
    (0 ≤ seed → seed < 1 / 2 →
      init_phase P seed fq cl sk = (sweep1 P fq cl sk * (seed * 2), seed * 2)) ∧
    (1 / 2 ≤ seed → seed < 1 →
      init_phase P seed fq cl sk =
        (sweep1 P fq cl sk +
          (midQ P fq sk - sweep1 P fq cl sk) * ((seed - 1 / 2) * 2), 1)) ∧
    (1 ≤ seed → seed < 3 / 2 →
      init_phase P seed fq cl sk =
        (midQ P fq sk + sweep2 P fq cl sk * ((seed - 1) * 2),
         1 + (seed - 1) * 2)) ∧
    (3 / 2 ≤ seed → seed ≤ 2 →
      init_phase P seed fq cl sk =
        (midQ P fq sk + sweep2 P fq cl sk +
          (2 - (midQ P fq sk + sweep2 P fq cl sk)) * ((seed - 3 / 2) * 2), 2)) := by
  refine ⟨fun h => by simp only [seedPhase, if_pos h],
    fun h => by simp only [seedPhase, if_neg h], fun h1 h2 => ?_,
    fun h1 h2 => ?_, fun h1 h2 => ?_, fun h1 h2 => ?_⟩ <;>
    · simp only [init_phase, msQ, midQ, sweep1, sweep2]
      split_ifs <;> first | rfl | (exfalso; linarith)

/-- Witness for C6 (amended): seed `2.5` at the concrete construction is
replaced by `1.25`, which the second-half sweep inverse maps to
`(phase, warped) = (3/2, 3/2)`. -/
theorem C6_phase_seeding_witness :
    ((5 / 2 : ℚ) < 0 ∨ (2 : ℚ) < 5 / 2) ∧
    seedPhase P0 (5 / 2) 100 0 0 = (3 / 2, 3 / 2) := by
  refine ⟨by norm_num, ?_⟩
  have hA := (C6_phase_seeding_amended P0 (5 / 2) (GET_FREQ 100) (GET_CLIP 0)
    (GET_SKEW 0) 100 0 0).1 (by norm_num)
  have hD := (C6_phase_seeding_amended P0 (5 / 4) (GET_FREQ 100) (GET_CLIP 0)
    (GET_SKEW 0) 100 0 0).2.2.2.2.1 (by norm_num) (by norm_num)
  rw [hA, hD]
  norm_num [midQ, sweep2, msQ, Clamp, GET_FREQ, GET_CLIP, GET_SKEW, P0]

/-! ## C7: the Parameter Feed -/

/-- Ramp invariant for the block-rate mode: either the feed has already
landed exactly on the target with a zeroed increment, or `m` more
`get_next` calls (with a nonzero increment) separate the value from the
target. -/
def RampInv (m : ℕ) (p : InputParam) : Prop :=
  p.host_sig = none ∧
  (p.value = p.target ∧ p.change = 0 ∨
    p.change ≠ 0 ∧ 1 ≤ m ∧ p.value = p.target - (m : ℚ) * p.change)

theorem rampInv_step (m : ℕ) (p : InputParam) (h : RampInv (m + 1) p) :
    RampInv m (getNext 0 p).2 := by
  obtain ⟨hsig, hcase⟩ := h
  unfold RampInv
  simp only [getNext, hsig, checkFinished]
  rcases hcase with ⟨hv, hc⟩ | ⟨hc, -, hv⟩
  · rw [if_neg (by simp [hc])]
    exact ⟨rfl, Or.inl ⟨by simp [hv, hc], hc⟩⟩
  · push_cast at hv
    rcases Nat.lt_or_ge m 2 with hm | hm
    · have habs : |p.value + p.change - p.target| ≤ |p.change| := by
        interval_cases m
        · have h0 : p.value + p.change - p.target = 0 := by rw [hv]; ring
          rw [h0, abs_zero]
          positivity
        · have h0 : p.value + p.change - p.target = -p.change := by
            rw [hv]; push_cast; ring
          rw [h0, abs_neg]
      rw [if_pos ⟨hc, habs⟩]
      exact ⟨rfl, Or.inl ⟨rfl, rfl⟩⟩
    · have hne : ¬(p.change ≠ 0 ∧ |p.value + p.change - p.target| ≤ |p.change|) := by
        rintro ⟨-, habs⟩
        have h1 : p.value + p.change - p.target = -((m : ℚ) * p.change) := by
          rw [hv]; ring
        rw [h1, abs_neg, abs_mul, Nat.abs_cast] at habs
        have h3 : (0 : ℚ) < |p.change| := abs_pos.mpr hc
        have h4 : (2 : ℚ) ≤ (m : ℚ) := by exact_mod_cast hm
        nlinarith
      rw [if_neg hne]
      refine ⟨rfl, Or.inr ⟨hc, by omega, ?_⟩⟩
      rw [hv]
      push_cast
      ring

theorem rampInv_run (m : ℕ) (p : InputParam) (h : RampInv m p) :
    (getNextN m p).value = p.target ∧ (getNextN m p).target = p.target := by
  induction m generalizing p with
  | zero =>
      rcases h.2 with ⟨hv, -⟩ | ⟨-, hm, -⟩
      · exact ⟨hv, rfl⟩
      · omega
  | succ m ih =>
      have hs := rampInv_step m p h
      have hrec := ih _ hs
      have htgt : (getNext 0 p).2.target = p.target := by
        simp only [getNext, h.1, checkFinished]
        split_ifs <;> rfl
      have hunf : getNextN (m + 1) p = getNextN m (getNext 0 p).2 := rfl
      rw [hunf]
      exact ⟨hrec.1.trans htgt, hrec.2.trans htgt⟩

/-- Claim C7: the Parameter Feed.  For an audio-rate source `get_next(i)`
reads `buffer[i]` and tracks it as the current value.  For a
block-granularity source, `reinit` sets a linear ramp of
`(target - value) / sample_count` per sample (unless the feed is already
within one increment, in which case it snaps immediately), each
`get_next` adds exactly that increment and snaps exactly to the target
once the remaining distance is within one increment (zeroing the
increment, hence no overshoot), and after `sample_count` calls the value
equals the target exactly. -/
theorem C7_param_feed (p : InputParam) (buf : List ℚ) (i : ℕ) (t : ℚ) (n : ℕ)
    (hn : 1 ≤ n) :
    (getNext i { p with host_sig := some buf } =
      (buf.getD i 0, { p with host_sig := some buf, value := buf.getD i 0 })) ∧
    (p.host_sig = none →
      (reinit [t] n p).target = t ∧
      ((reinit [t] n p).change = (t - p.value) * (1 / (n : ℚ)) ∧
          (reinit [t] n p).value = p.value ∨
        (reinit [t] n p).value = t ∧ (reinit [t] n p).change = 0)) ∧
    (p.host_sig = none →
      (getNext i p).1 = (getNext i p).2.value ∧
      (p.change ≠ 0 ∧ |p.value + p.change - p.target| ≤ |p.change| →
        (getNext i p).2.value = p.target ∧ (getNext i p).2.change = 0) ∧
      (¬(p.change ≠ 0 ∧ |p.value + p.change - p.target| ≤ |p.change|) →
        (getNext i p).2 = { p with value := p.value + p.change })) ∧
    (p.host_sig = none → (getNextN n (reinit [t] n p)).value = t) := by
  refine ⟨rfl, fun hsig => ?_, fun hsig => ?_, fun hsig => ?_⟩
  · simp only [reinit, hsig, setTarget, checkFinished, List.getD_cons_zero]
    split_ifs with h
    · exact ⟨rfl, Or.inr ⟨rfl, rfl⟩⟩
    · exact ⟨rfl, Or.inl ⟨rfl, rfl⟩⟩
  · simp only [getNext, hsig, checkFinished]
    refine ⟨?_, fun h => ?_, fun h => ?_⟩
    · trivial
    · rw [if_pos h]
      exact ⟨rfl, rfl⟩
    · rw [if_neg h]
  · have hn0 : ((n : ℚ)) ≠ 0 := by
      have : (0 : ℚ) < (n : ℚ) := by exact_mod_cast hn
      linarith
    have hramp : RampInv n (reinit [t] n p) := by
      unfold RampInv
      simp only [reinit, hsig, setTarget, checkFinished, List.getD_cons_zero]
      split_ifs with h
      · exact ⟨rfl, Or.inl ⟨rfl, rfl⟩⟩
      · refine ⟨rfl, ?_⟩
        rcases eq_or_ne ((t - p.value) * (1 / (n : ℚ))) 0 with hz | hz
        · left
          have hz0 : t - p.value = 0 := by
            rcases mul_eq_zero.mp hz with h1 | h1
            · exact h1
            · exact absurd h1 (by simp [hn0])
          exact ⟨by linarith, hz⟩
        · right
          refine ⟨hz, hn, ?_⟩
          field_simp
    have hrun := rampInv_run n _ hramp
    have htg : (reinit [t] n p).target = t := by
      simp only [reinit, hsig, setTarget, checkFinished, List.getD_cons_zero]
      split_ifs <;> rfl
    rw [hrun.1, htg]

/-- Witness for C7: a block-rate feed at value `2` ramped to target `10`
over a 4-sample block lands exactly on `10`. -/
theorem C7_param_feed_witness :
    (1 ≤ 4) ∧ (getNextN 4 (reinit [10] 4 ⟨none, 0, 2, 0⟩)).value = 10 := by
  exact ⟨by norm_num, (C7_param_feed ⟨none, 0, 2, 0⟩ [] 0 10 4 (by norm_num)).2.2.2 rfl⟩

/-! ## The pure-sine branch (C3, C10) -/

theorem armState_warped (P : Params) (fin : ℚ) (trig : Bool) (s : OscState) :
    (armState P fin trig s).warped_phase = s.warped_phase := by
  unfold armState hardsync_init
  split_ifs <;> rfl

theorem hsAdvance_warped (P : Params) (s : OscState) :
    (hsAdvance P s).warped_phase = s.warped_phase := by
  unfold hsAdvance
  split_ifs <;> rfl

/-- The hard-sync blend never pulls an effective frequency below
`Max_Warp_Freq` when the resolved input frequency is already at or above
it (the blend is a convex combination with `Max_Sync_Freq > Max_Warp_Freq`). -/
theorem hsFreq_ge (P : Params) (hP : P.valid) (f : ℚ) (s : OscState)
    (hf : P.Max_Warp_Freq ≤ f) : P.Max_Warp_Freq ≤ hsFreq P f s := by
  obtain ⟨-, -, -, -, -, -, hlt, -, -, hcos⟩ := hP
  unfold hsFreq
  split_ifs with h
  · obtain ⟨hc1, hc2⟩ := hcos s.hardsync_phase
    have ht0 : 0 ≤ 1 / 2 * (1 - P.cosfn s.hardsync_phase) := by linarith
    have ht1 : 1 / 2 * (1 - P.cosfn s.hardsync_phase) ≤ 1 := by linarith
    nlinarith [mul_nonneg (by linarith : (0 : ℚ) ≤ 1 - 1 / 2 * (1 - P.cosfn s.hardsync_phase))
        (by linarith : (0 : ℚ) ≤ f - P.Max_Warp_Freq),
      mul_nonneg ht0 (by linarith : (0 : ℚ) ≤ P.Max_Sync_Freq - P.Max_Warp_Freq)]
  · exact hf

/-- Canonical form of one whole `step` when the effective frequency is in
the pure-sine region: output `cos(pi * warped_phase)`, both accumulators
move to `warped_phase + phase_inc`, and the wraparound block (hard-sync
landing, or wrap with the wild-aliasing guard) acts on that common value.
The clip and skew inputs appear nowhere. -/
theorem step_pure_form (P : Params) (fin cin kin : ℚ) (trig : Bool) (s : OscState)
    (hf2 : P.Max_Warp_Freq ≤ effFreq P fin trig s) :
    step P fin cin kin trig s =
      (Out.cosw s.warped_phase,
       (if 2 ≤ s.warped_phase + effInc P fin trig s then
          if (armA P fin trig s).hardsync_phase ≠ 0 then (⟨0, 0, 0, 0⟩ : OscState)
          else
            { armA P fin trig s with
              phase :=
                if effInc P fin trig s < s.warped_phase + effInc P fin trig s - 2 then
                  effInc P fin trig s * (1 / 2)
                else s.warped_phase + effInc P fin trig s - 2,
              warped_phase :=
                if effInc P fin trig s < s.warped_phase + effInc P fin trig s - 2 then
                  effInc P fin trig s * (1 / 2)
                else s.warped_phase + effInc P fin trig s - 2 }
        else
          { armA P fin trig s with
            phase := s.warped_phase + effInc P fin trig s,
            warped_phase := s.warped_phase + effInc P fin trig s },
       if 2 ≤ s.warped_phase + effInc P fin trig s then
         if (armA P fin trig s).hardsync_phase ≠ 0 then true else false
       else false)) := by
  have hf2' : P.Max_Warp_Freq ≤ hsFreq P (GET_FREQ fin) (armState P fin trig s) := hf2
  have hnlt : ¬(hsFreq P (GET_FREQ fin) (armState P fin trig s) < P.Max_Warp_Freq) :=
    not_lt.mpr hf2'
  simp only [step, preWrap, wrapPhase, pureStep, armA, effInc, effFreq, if_pos hf2',
    if_neg hnlt, hsAdvance_warped, armState_warped, and_self]
  split_ifs <;> rfl

/-- Claim C3 (pure-sine equivalence): when the resolved input frequency
is at or above `Max_Warp_Freq`, the sample written by `next` is
`cos(pi * warped_phase)` for the warped phase at the start of the sample,
the whole step result is independent of the clip and skew inputs, and
(when no wraparound fires) `warped_phase` and `phase` advance together to
`warped_phase + phase_inc`. -/
theorem C3_pure_sine (P : Params) (hP : P.valid) (fin cin kin : ℚ) (trig : Bool)
    (s : OscState) (hf : P.Max_Warp_Freq ≤ GET_FREQ fin) :
    (step P fin cin kin trig s).1 = Out.cosw s.warped_phase ∧
    (∀ c k, step P fin c k trig s = step P fin cin kin trig s) ∧
    (s.warped_phase + effInc P fin trig s < 2 →
      (step P fin cin kin trig s).2.1.phase = s.warped_phase + effInc P fin trig s ∧
      (step P fin cin kin trig s).2.1.warped_phase =
        s.warped_phase + effInc P fin trig s) := by
  have hf2 : P.Max_Warp_Freq ≤ effFreq P fin trig s := hsFreq_ge P hP _ _ hf
  have hform := step_pure_form P fin cin kin trig s hf2
  refine ⟨by rw [hform], fun c k => (step_pure_form P fin c k trig s hf2).trans hform.symm,
    fun hlt => ?_⟩
  rw [hform]
  rw [if_neg (by linarith)]
  exact ⟨rfl, rfl⟩

/-- Witness for C3 at the concrete construction: `freq = 20000 ≥ 2400`,
state `(1/2, 1/2)`, no trigger; the output is `cos(pi * 1/2)` (the
current warped phase), clip/skew inputs `7` and `1/3` give the same step
as `0` and `0`, and both accumulators land on `1/2 + 5/6`. -/
theorem C3_pure_sine_witness :
    P0.Max_Warp_Freq ≤ GET_FREQ 20000 ∧
    (step P0 20000 7 (1 / 3) false ⟨1 / 2, 1 / 2, 0, 0⟩).1 = Out.cosw (1 / 2) ∧
    step P0 20000 7 (1 / 3) false ⟨1 / 2, 1 / 2, 0, 0⟩ =
      step P0 20000 0 0 false ⟨1 / 2, 1 / 2, 0, 0⟩ ∧
    (step P0 20000 7 (1 / 3) false ⟨1 / 2, 1 / 2, 0, 0⟩).2.1.phase = 1 / 2 + 5 / 6 ∧
    (step P0 20000 7 (1 / 3) false ⟨1 / 2, 1 / 2, 0, 0⟩).2.1.warped_phase =
      1 / 2 + 5 / 6 := by
  have hfr : P0.Max_Warp_Freq ≤ GET_FREQ 20000 := by norm_num [GET_FREQ, P0]
  have h := C3_pure_sine P0 P0_valid 20000 7 (1 / 3) false ⟨1 / 2, 1 / 2, 0, 0⟩ hfr
  have hinc : effInc P0 20000 false ⟨1 / 2, 1 / 2, 0, 0⟩ = 5 / 6 := by
    norm_num [effInc, effFreq, armState, hsFreq, GET_FREQ, P0]
  have hw : (⟨1 / 2, 1 / 2, 0, 0⟩ : OscState).warped_phase = 1 / 2 := rfl
  have h3 := h.2.2 (by rw [hinc, hw]; norm_num)
  exact ⟨hfr, by rw [h.1, hw], h.2.1 0 0, by rw [h3.1, hinc, hw],
    by rw [h3.2, hinc, hw]⟩

/-- Claim C10: through the pure-sine branch the two accumulators end
every sample synchronized, `phase = warped_phase`, in every wraparound
case (no wrap, hard-sync landing reset, normal wrap, wild-aliasing
reset). -/
theorem C10_pure_sync (P : Params) (hP : P.valid) (fin cin kin : ℚ) (trig : Bool)
    (s : OscState) (hf : P.Max_Warp_Freq ≤ GET_FREQ fin) :
    (step P fin cin kin trig s).2.1.phase =
      (step P fin cin kin trig s).2.1.warped_phase := by
  have hf2 : P.Max_Warp_Freq ≤ effFreq P fin trig s := hsFreq_ge P hP _ _ hf
  rw [step_pure_form P fin cin kin trig s hf2]
  split_ifs <;> rfl

/-- Witness for C10: the same concrete pure-sine sample ends with
`phase = warped_phase`. -/
theorem C10_pure_sync_witness :
    P0.Max_Warp_Freq ≤ GET_FREQ 20000 ∧
    (step P0 20000 0 0 false ⟨1 / 2, 1 / 2, 0, 0⟩).2.1.phase =
      (step P0 20000 0 0 false ⟨1 / 2, 1 / 2, 0, 0⟩).2.1.warped_phase := by
  have hfr : P0.Max_Warp_Freq ≤ GET_FREQ 20000 := by norm_num [GET_FREQ, P0]
  exact ⟨hfr, C10_pure_sync P0 P0_valid 20000 0 0 false ⟨1 / 2, 1 / 2, 0, 0⟩ hfr⟩

/-! ## C5: hard-sync termination -/

theorem step_decomp (P : Params) (fin cin kin : ℚ) (trig : Bool) (s : OscState) :
    step P fin cin kin trig s =
      ((preWrap P fin cin kin trig s).1,
       (wrapPhase P (preWrap P fin cin kin trig s).2.2 (GET_CLIP cin) (GET_SKEW kin)
         (preWrap P fin cin kin trig s).2.1).1,
       (wrapPhase P (preWrap P fin cin kin trig s).2.2 (GET_CLIP cin) (GET_SKEW kin)
         (preWrap P fin cin kin trig s).2.1).2) := rfl

theorem segmentStep_hs (P : Params) (clip skew phase_inc : ℚ) (s : OscState) :
    (segmentStep P clip skew phase_inc s).2.hardsync_phase = s.hardsync_phase ∧
    (segmentStep P clip skew phase_inc s).2.hardsync_inc = s.hardsync_inc := by
  simp only [segmentStep]
  split_ifs <;> exact ⟨rfl, rfl⟩

/-- The segment/pure-sine logic never touches the hard-sync fields: the
state produced by `preWrap` carries the post-advance hard-sync phase. -/
theorem preWrap_hs (P : Params) (fin cin kin : ℚ) (trig : Bool) (s : OscState) :
    (preWrap P fin cin kin trig s).2.1.hardsync_phase =
      (armA P fin trig s).hardsync_phase ∧
    (preWrap P fin cin kin trig s).2.1.hardsync_inc =
      (armA P fin trig s).hardsync_inc := by
  simp only [preWrap, armA, pureStep]
  split_ifs
  · exact ⟨rfl, rfl⟩
  · exact ⟨(segmentStep_hs _ _ _ _ _).1, (segmentStep_hs _ _ _ _ _).2⟩

theorem armState_sweeping (P : Params) (fin : ℚ) (trig : Bool) (s : OscState)
    (h : s.hardsync_phase ≠ 0) : armState P fin trig s = s := by
  unfold armState hardsync_init
  split_ifs <;> rfl

/-- Claim C5 (hard-sync termination): from every sweeping state the step
goes idle — full reset `phase = warped_phase = hardsync_phase =
hardsync_inc = 0` together with a request to re-search the sync input
from the current sample — exactly when the advanced accumulators satisfy
`warped_phase ≥ 2 ∧ phase ≥ 2`; `hardsync_phase` passing `pi` never ends
the sweep, it only clamps to `pi` and zeroes `hardsync_inc` so the
frequency ramp holds at its ceiling. -/
theorem C5_sync_termination (P : Params) (hP : P.valid) (fin cin kin : ℚ)
    (trig : Bool) (s : OscState) (hp : 0 < s.hardsync_phase)
    (hi : 0 ≤ s.hardsync_inc) :
    ((step P fin cin kin trig s).2.1.hardsync_phase = 0 ↔
      2 ≤ (preWrap P fin cin kin trig s).2.1.warped_phase ∧
        2 ≤ (preWrap P fin cin kin trig s).2.1.phase) ∧
    (2 ≤ (preWrap P fin cin kin trig s).2.1.warped_phase ∧
        2 ≤ (preWrap P fin cin kin trig s).2.1.phase →
      (step P fin cin kin trig s).2.1 = ⟨0, 0, 0, 0⟩ ∧
      (step P fin cin kin trig s).2.2 = true) ∧
    (P.pi_c < s.hardsync_phase + s.hardsync_inc →
      (preWrap P fin cin kin trig s).2.1.hardsync_phase = P.pi_c ∧
      (preWrap P fin cin kin trig s).2.1.hardsync_inc = 0) ∧
    (¬(2 ≤ (preWrap P fin cin kin trig s).2.1.warped_phase ∧
        2 ≤ (preWrap P fin cin kin trig s).2.1.phase) →
      (step P fin cin kin trig s).2.1.hardsync_phase ≠ 0 ∧
      (step P fin cin kin trig s).2.2 = false) := by
  obtain ⟨-, -, -, -, -, -, -, -, hpi, -⟩ := hP
  have harm : armA P fin trig s = hsAdvance P s := by
    unfold armA
    rw [armState_sweeping P fin trig s hp.ne']
  have h1 : (preWrap P fin cin kin trig s).2.1.hardsync_phase =
      (hsAdvance P s).hardsync_phase := by
    rw [(preWrap_hs P fin cin kin trig s).1, harm]
  have h2 : (preWrap P fin cin kin trig s).2.1.hardsync_inc =
      (hsAdvance P s).hardsync_inc := by
    rw [(preWrap_hs P fin cin kin trig s).2, harm]
  have hq_pos : 0 < (preWrap P fin cin kin trig s).2.1.hardsync_phase := by
    rw [h1]
    unfold hsAdvance
    rw [if_pos hp.ne']
    split_ifs
    · exact hpi
    · simpa using add_pos_of_pos_of_nonneg hp hi
  have hclamp : P.pi_c < s.hardsync_phase + s.hardsync_inc →
      (preWrap P fin cin kin trig s).2.1.hardsync_phase = P.pi_c ∧
      (preWrap P fin cin kin trig s).2.1.hardsync_inc = 0 := by
    intro hgt
    rw [h1, h2]
    unfold hsAdvance
    rw [if_pos hp.ne', if_pos hgt]
    exact ⟨rfl, rfl⟩
  rw [step_decomp]
  unfold wrapPhase
  by_cases hC : 2 ≤ (preWrap P fin cin kin trig s).2.1.warped_phase ∧
      2 ≤ (preWrap P fin cin kin trig s).2.1.phase
  · rw [if_pos hC, if_pos hq_pos.ne']
    exact ⟨by simpa using hC, fun _ => ⟨rfl, rfl⟩, hclamp, fun h => absurd hC h⟩
  · rw [if_neg hC]
    exact ⟨by simpa [hq_pos.ne'] using hC, fun h => absurd h hC, hclamp,
      fun _ => ⟨hq_pos.ne', rfl⟩⟩

/-- Witness for C5: a sweeping state `(39/20, 39/20, 3, 0)` at
`freq = 2400` wraps this sample (`warped = phase = 41/20 ≥ 2`) and goes
idle with the full reset and a sync re-search request. -/
theorem C5_sync_termination_witness :
    (0 : ℚ) < 3 ∧ (0 : ℚ) ≤ 0 ∧
    (step P0 2400 0 0 false ⟨39 / 20, 39 / 20, 3, 0⟩).2.1 = ⟨0, 0, 0, 0⟩ ∧
    (step P0 2400 0 0 false ⟨39 / 20, 39 / 20, 3, 0⟩).2.2 = true := by
  have h := C5_sync_termination P0 P0_valid 2400 0 0 false ⟨39 / 20, 39 / 20, 3, 0⟩
    (by norm_num) (le_refl 0)
  have hwrap : 2 ≤ (preWrap P0 2400 0 0 false ⟨39 / 20, 39 / 20, 3, 0⟩).2.1.warped_phase ∧
      2 ≤ (preWrap P0 2400 0 0 false ⟨39 / 20, 39 / 20, 3, 0⟩).2.1.phase := by
    norm_num [preWrap, armState, hsFreq, hsAdvance, pureStep, GET_FREQ, P0]
  exact ⟨by norm_num, le_refl 0, (h.2.1 hwrap).1, (h.2.1 hwrap).2⟩

/-! ## C4: hard-sync suppression -/

theorem hsAdvance_id (P : Params) (s : OscState) (h : s.hardsync_phase = 0) :
    hsAdvance P s = s := by
  unfold hsAdvance
  rw [if_neg (by simp [h])]

/-- A trigger landing while the resolved frequency exceeds
`Max_Sync_Freq` changes nothing about the sample: the step with the
trigger is identical to the step without it.  (Even in the
`warped_phase = 2` case, where `hardsync_init` force-completes the cycle
by setting `phase = 2`, the poke is dead: `freq > Max_Sync_Freq >
Max_Warp_Freq` routes the sample through the pure-sine branch, which
overwrites `phase` with `warped_phase` before anything reads it.) -/
theorem step_drop (P : Params) (hP : P.valid) (f c k : ℚ) (s : OscState)
    (hf : P.Max_Sync_Freq < GET_FREQ f) :
    step P f c k true s = step P f c k false s := by
  obtain ⟨-, -, -, -, -, -, hlt, -, -, -⟩ := hP
  by_cases h0 : s.hardsync_phase = 0
  · by_cases h2 : s.warped_phase = 2
    · -- the force-complete poke; both sides go through the pure branch
      have hinit : hardsync_init P (GET_FREQ f) s = { s with phase := 2 } := by
        unfold hardsync_init
        rw [if_neg (by simp [h0]), if_pos h2]
      have harmT : armState P f true s = { s with phase := 2 } := by
        simp [armState, hinit]
      have harmF : armState P f false s = s := rfl
      have heffT : effFreq P f true s = GET_FREQ f := by
        simp only [effFreq, harmT, hsFreq]
        rw [if_neg (by simp [h0])]
      have heffF : effFreq P f false s = GET_FREQ f := by
        simp only [effFreq, harmF, hsFreq]
        rw [if_neg (by simp [h0])]
      have hwT : P.Max_Warp_Freq ≤ effFreq P f true s := by rw [heffT]; linarith
      have hwF : P.Max_Warp_Freq ≤ effFreq P f false s := by rw [heffF]; linarith
      rw [step_pure_form P f c k true s hwT, step_pure_form P f c k false s hwF]
      have hincs : effInc P f true s = effInc P f false s := by
        simp only [effInc, heffT, heffF]
      have haT : armA P f true s = { s with phase := 2 } := by
        simp only [armA, harmT]
        exact hsAdvance_id P _ h0
      have haF : armA P f false s = s := by
        simp only [armA, harmF]
        exact hsAdvance_id P _ h0
      rw [hincs, haT, haF]
    · -- trigger silently dropped by the frequency guard
      have hinit : hardsync_init P (GET_FREQ f) s = s := by
        unfold hardsync_init
        rw [if_neg (by simp [h0]), if_neg h2, if_pos hf]
      have harm : armState P f true s = armState P f false s := by
        simp [armState, hinit]
      simp only [step, preWrap, harm]
  · -- a sweep is already active: hardsync_init returns immediately
    have harm : armState P f true s = armState P f false s := by
      rw [armState_sweeping P f true s h0, armState_sweeping P f false s h0]
    simp only [step, preWrap, harm]

theorem find_sync_aux_none (sig : List ℚ) (rem : ℕ) :
    ∀ first, (∀ j, first ≤ j → j < first + rem → sig.getD j 0 < 1) →
      find_sync_aux sig first rem = -1 := by
  induction rem with
  | zero => intro first _; rfl
  | succ r ih =>
      intro first h
      unfold find_sync_aux
      rw [if_neg (not_le.mpr (h first le_rfl (by omega)))]
      exact ih (first + 1) fun j hj1 hj2 => h j (by omega) (by omega)

/-- `find_sync` over a window with no trigger sample returns `-1`. -/
theorem find_sync_none (sig : List ℚ) (n i : ℕ)
    (h : ∀ j, j < n → sig.getD j 0 < 1) : find_sync sig i n = -1 := by
  unfold find_sync
  exact find_sync_aux_none sig (n - i) i fun j hj1 hj2 => h j (by omega)

theorem find_sync_aux_at (sig : List ℚ) (n k : ℕ) (hk : k < n)
    (hσk : 1 ≤ sig.getD k 0) (hothers : ∀ j, j < n → j ≠ k → sig.getD j 0 < 1) :
    ∀ rem first, first + rem = n →
      find_sync_aux sig first rem = if first ≤ k then (k : Int) else -1 := by
  intro rem
  induction rem with
  | zero =>
      intro first h0
      rw [if_neg (by omega)]
      rfl
  | succ r ih =>
      intro first hf
      unfold find_sync_aux
      by_cases hfk : first = k
      · subst hfk
        rw [if_pos hσk, if_pos le_rfl]
      · rw [if_neg (not_le.mpr (hothers first (by omega) hfk)), ih (first + 1) (by omega)]
        by_cases hle : first ≤ k
        · rw [if_pos (by omega), if_pos hle]
        · rw [if_neg (by omega), if_neg hle]

/-- `find_sync` over a window whose only trigger sample is `k` returns
`k` when the search starts at or before `k`, else `-1`. -/
theorem find_sync_at (sig : List ℚ) (n k : ℕ) (hk : k < n)
    (hσk : 1 ≤ sig.getD k 0) (hothers : ∀ j, j < n → j ≠ k → sig.getD j 0 < 1)
    (i : ℕ) (hi : i ≤ n) :
    find_sync sig i n = if i ≤ k then (k : Int) else -1 := by
  unfold find_sync
  exact find_sync_aux_at sig n k hk hσk hothers (n - i) i (by omega)

theorem nextLoop_drop (P : Params) (hP : P.valid) (ins : List (ℚ × ℚ × ℚ))
    (σ σ' : List ℚ) (n k : ℕ) (hk : k < n) (hσk : 1 ≤ σ.getD k 0)
    (hσ : ∀ j, j < n → j ≠ k → σ.getD j 0 < 1)
    (hσ' : ∀ j, j < n → σ'.getD j 0 < 1)
    (hf : P.Max_Sync_Freq < GET_FREQ (ins.getD k (0, 0, 0)).1) :
    ∀ rem i sA, i + rem = n → (sA = -1 ∨ sA = (k : Int)) → ∀ s,
      nextLoop P ins σ n i rem sA s = nextLoop P ins σ' n i rem (-1) s := by
  intro rem
  induction rem with
  | zero => intro i sA _ _ s; rfl
  | succ r ih =>
      intro i sA hin hsA s
      have hstep : step P (ins.getD i (0, 0, 0)).1 (ins.getD i (0, 0, 0)).2.1
          (ins.getD i (0, 0, 0)).2.2 ((i : Int) == sA) s =
          step P (ins.getD i (0, 0, 0)).1 (ins.getD i (0, 0, 0)).2.1
          (ins.getD i (0, 0, 0)).2.2 ((i : Int) == (-1 : Int)) s := by
        have htB : ((i : Int) == (-1 : Int)) = false := by
          simp only [beq_eq_false_iff_ne]
          omega
        rcases hsA with h | h
        · rw [h]
        · subst h
          by_cases hik : i = k
          · subst hik
            have htA : ((i : Int) == (i : Int)) = true := by simp
            rw [htA, htB]
            exact step_drop P hP _ _ _ s hf
          · have htA : ((i : Int) == (k : Int)) = false := by
              simp only [beq_eq_false_iff_ne]
              omega
            rw [htA, htB]
      simp only [nextLoop]
      rw [hstep]
      by_cases hre : (step P (ins.getD i (0, 0, 0)).1 (ins.getD i (0, 0, 0)).2.1
          (ins.getD i (0, 0, 0)).2.2 ((i : Int) == (-1 : Int)) s).2.2 = true
      · rw [if_pos hre, if_pos hre,
          ih (i + 1) (find_sync σ i n) (by omega) ?_,
          find_sync_none σ' n i hσ']
        rw [find_sync_at σ n k hk hσk hσ i (by omega)]
        by_cases hik : i ≤ k
        · rw [if_pos hik]
          exact Or.inr rfl
        · rw [if_neg hik]
          exact Or.inl rfl
      · rw [if_neg hre, if_neg hre, ih (i + 1) sA (by omega) hsA]

/-- Claim C4 (hard-sync suppression): when the single trigger of a block
lands on a sample whose resolved frequency exceeds `Max_Sync_Freq`, the
whole block — every output sample and the final state — is bit-identical
to running the same block with no trigger at all, for every starting
oscillator state (including `warped_phase = 2`). -/
theorem C4_sync_suppression (P : Params) (hP : P.valid) (ins : List (ℚ × ℚ × ℚ))
    (σ σ' : List ℚ) (n k : ℕ) (s : OscState) (hk : k < n)
    (hσk : 1 ≤ σ.getD k 0) (hσ : ∀ j, j < n → j ≠ k → σ.getD j 0 < 1)
    (hσ' : ∀ j, j < n → σ'.getD j 0 < 1)
    (hf : P.Max_Sync_Freq < GET_FREQ (ins.getD k (0, 0, 0)).1) :
    nextBlock P ins σ n s = nextBlock P ins σ' n s := by
  unfold nextBlock
  rw [find_sync_none σ' n 0 hσ', find_sync_at σ n k hk hσk hσ 0 (by omega),
    if_pos (Nat.zero_le k)]
  exact nextLoop_drop P hP ins σ σ' n k hk hσk hσ hσ' hf n 0 (k : Int) (by omega)
    (Or.inr rfl) s

/-- Witness for C4: a two-sample block at the concrete construction, with
a trigger on sample 0 while `freq = 20000 > Max_Sync_Freq`, starting in
the terminal flat segment (`warped_phase = 2`); the block equals the
no-trigger block. -/
theorem C4_sync_suppression_witness :
    (0 < 2 ∧ (1 : ℚ) ≤ [(1 : ℚ), 0].getD 0 0 ∧
      P0.Max_Sync_Freq < GET_FREQ ([((20000 : ℚ), (0 : ℚ), (0 : ℚ)), (100, 0, 0)].getD 0 (0, 0, 0)).1) ∧
    nextBlock P0 [((20000 : ℚ), (0 : ℚ), (0 : ℚ)), (100, 0, 0)] [(1 : ℚ), 0] 2 ⟨1, 2, 0, 0⟩ =
      nextBlock P0 [((20000 : ℚ), (0 : ℚ), (0 : ℚ)), (100, 0, 0)] [(0 : ℚ), 0] 2 ⟨1, 2, 0, 0⟩ := by
  have h1 : (1 : ℚ) ≤ [(1 : ℚ), 0].getD 0 0 := by norm_num [List.getD]
  have h2 : P0.Max_Sync_Freq <
      GET_FREQ ([((20000 : ℚ), (0 : ℚ), (0 : ℚ)), (100, 0, 0)].getD 0 (0, 0, 0)).1 := by
    norm_num [List.getD, GET_FREQ, P0]
  refine ⟨⟨by norm_num, h1, h2⟩, ?_⟩
  apply C4_sync_suppression P0 P0_valid _ _ _ 2 0 _ (by norm_num) h1 ?_ ?_ h2
  · intro j hj hne
    interval_cases j
    · exact absurd rfl hne
    · norm_num [List.getD]
  · intro j hj
    interval_cases j
    · norm_num [List.getD]
    · norm_num [List.getD]

/-! ## C2: the anti-aliasing warp ceiling -/

theorem Clamp_bounds (x lo hi : ℚ) (h : lo ≤ hi) :
    lo ≤ Clamp x lo hi ∧ Clamp x lo hi ≤ hi := by
  unfold Clamp
  split_ifs with h1 h2
  · exact ⟨h1.1, h1.2⟩
  · exact ⟨le_refl lo, h⟩
  · exact ⟨h, le_refl hi⟩

theorem divmin_nonneg (num den cap : ℚ) (h1 : 0 ≤ num) (h2 : 0 ≤ den)
    (h3 : 0 ≤ cap) : 0 ≤ divmin num den cap := by
  unfold divmin
  split_ifs with h
  · exact h3
  · exact le_min (div_nonneg h1 h2) h3

theorem divmin_le_cap (num den cap : ℚ) : divmin num den cap ≤ cap := by
  unfold divmin
  split_ifs with h
  · exact le_refl cap
  · exact min_le_right _ _

theorem divmin_num_zero (den cap : ℚ) (hden : den ≠ 0) (hcap : 0 ≤ cap) :
    divmin 0 den cap = 0 := by
  unfold divmin
  rw [if_neg hden]
  simp [hcap]

theorem divmin_mul_le (num den cap : ℚ) (h1 : 0 ≤ num) (h2 : 0 ≤ den) :
    divmin num den cap * den ≤ num := by
  unfold divmin
  split_ifs with h
  · rw [h, mul_zero]
    exact h1
  · have hden : 0 < den := lt_of_le_of_ne h2 (Ne.symm h)
    calc min (num / den) cap * den ≤ num / den * den :=
          mul_le_mul_of_nonneg_right (min_le_left _ _) h2
      _ = num := by field_simp

set_option maxHeartbeats 1600000 in
/-- The warped-phase advance performed by the segment logic in one
sample: at most `Max_Warp` from any state not re-entering the up sweep
from the flat segment, and at most `2 * Max_Warp` from the flat re-entry
(`warped_phase = 1` with `phase` already past the midpoint), where the
catch-up assignment and the sweep increment each contribute up to
`Max_Warp`. -/
theorem segment_advance (P : Params) (hP : P.valid) (clip skew phase_inc : ℚ)
    (s : OscState) (_hc0 : 0 ≤ clip) (hc1 : clip ≤ 1) (hinc : 0 ≤ phase_inc)
    (hms1 : phase_inc * P.Min_Sweep ≤ 1) (_hw0 : 0 ≤ s.warped_phase)
    (hw2 : s.warped_phase ≤ 2) :
    (segmentStep P clip skew phase_inc s).2.warped_phase - s.warped_phase ≤
        2 * P.Max_Warp ∧
    (s.warped_phase ≠ 1 →
      (segmentStep P clip skew phase_inc s).2.warped_phase - s.warped_phase ≤
        P.Max_Warp) := by
  obtain ⟨hsr, hM4, -, -, -, hmw, -, -, -, -⟩ := hP
  have hM0 : (0 : ℚ) < P.Min_Sweep := by linarith
  have hMW0 : 0 < P.Max_Warp := by
    rw [hmw]
    positivity
  have hMW4 : P.Max_Warp ≤ 1 / 4 := by
    rw [hmw]
    rw [div_le_div_iff₀ hM0 (by norm_num)]
    linarith
  have hMWM : P.Max_Warp * P.Min_Sweep = 1 := by
    rw [hmw]
    field_simp
  simp only [segmentStep]
  set ms := phase_inc * P.Min_Sweep with hms_def
  set mid := Clamp skew ms (2 - ms) with hmid_def
  set sl1 := max (clip * mid) ms with hsl1_def
  set sl2 := max (clip * (2 - mid)) ms with hsl2_def
  set d1 := divmin phase_inc sl1 P.Max_Warp with hd1_def
  set d2 := divmin phase_inc sl2 P.Max_Warp with hd2_def
  set r := divmin (min (s.phase - mid) phase_inc) sl2 P.Max_Warp with hr_def
  have hms_nn : 0 ≤ ms := mul_nonneg hinc (le_of_lt hM0)
  have hmid_rng : ms ≤ mid ∧ mid ≤ 2 - ms := Clamp_bounds skew ms (2 - ms) (by linarith)
  have hmid0 : 0 ≤ mid := le_trans hms_nn hmid_rng.1
  have hmid2 : mid ≤ 2 := by linarith [hmid_rng.2]
  have hsl1_ms : ms ≤ sl1 := le_max_right _ _
  have hsl1_nn : 0 ≤ sl1 := le_trans hms_nn hsl1_ms
  have hsl1_mid : sl1 ≤ mid :=
    max_le (mul_le_of_le_one_left hmid0 hc1) hmid_rng.1
  have hsl2_ms : ms ≤ sl2 := le_max_right _ _
  have hsl2_nn : 0 ≤ sl2 := le_trans hms_nn hsl2_ms
  have hsl2_2mid : sl2 ≤ 2 - mid :=
    max_le (mul_le_of_le_one_left (by linarith) hc1) (by linarith [hmid_rng.2])
  have hd1_nn : 0 ≤ d1 := divmin_nonneg _ _ _ hinc hsl1_nn (le_of_lt hMW0)
  have hd1_cap : d1 ≤ P.Max_Warp := divmin_le_cap _ _ _
  have hd1_mul : d1 * sl1 ≤ phase_inc := divmin_mul_le _ _ _ hinc hsl1_nn
  have hd2_nn : 0 ≤ d2 := divmin_nonneg _ _ _ hinc hsl2_nn (le_of_lt hMW0)
  have hd2_cap : d2 ≤ P.Max_Warp := divmin_le_cap _ _ _
  have hd2_mul : d2 * sl2 ≤ phase_inc := divmin_mul_le _ _ _ hinc hsl2_nn
  have hr_cap : r ≤ P.Max_Warp := divmin_le_cap _ _ _
  have hincMW : phase_inc = ms * P.Max_Warp := by
    rw [hms_def]
    calc phase_inc = phase_inc * (P.Max_Warp * P.Min_Sweep) := by rw [hMWM]; ring
      _ = phase_inc * P.Min_Sweep * P.Max_Warp := by ring
  clear_value ms mid sl1 sl2 d1 d2 r
  split_ifs with c1 c2 c3 c4 w2a weq1 ov1 sn1 ov2 sn2
  · -- down sweep, overshoot, lands in the flat part (snap to 1)
    dsimp only
    exact ⟨by linarith, fun _ => by linarith⟩
  · -- down sweep, overshoot past the whole flat part into the up sweep
    dsimp only
    have hfl : 0 ≤ mid - sl1 := by linarith
    push_neg at c4
    have hinc_pos : 0 < phase_inc := by
      rcases lt_or_eq_of_le hinc with h | h
      · exact h
      · exfalso
        rcases eq_or_lt_of_le hsl1_nn with hs0 | hs0
        · rw [← hs0] at c4
          simp at c4
          linarith
        · have hd10 : d1 = 0 := by
            rw [hd1_def, ← h, divmin_num_zero _ _ (ne_of_gt hs0) (le_of_lt hMW0)]
          rw [hd10] at c3
          linarith
    have hms_pos : 0 < ms := by
      rw [hms_def]
      positivity
    have hsl2_pos : 0 < sl2 := lt_of_lt_of_le hms_pos hsl2_ms
    have ha0 : 0 < 1 - s.warped_phase := by linarith
    have had : 1 - s.warped_phase < d1 := by linarith
    have hkey : ((s.warped_phase + d1 - 1) * sl1 - (mid - sl1)) / sl2 ≤
        P.Max_Warp - (1 - s.warped_phase) := by
      rw [div_le_iff₀ hsl2_pos]
      rcases le_or_lt sl1 sl2 with hcase | hcase
      · nlinarith [mul_nonneg (by linarith : (0 : ℚ) ≤ d1 - (1 - s.warped_phase))
            (by linarith : (0 : ℚ) ≤ sl2 - sl1),
          mul_nonneg (by linarith : (0 : ℚ) ≤ P.Max_Warp - d1) (le_of_lt hsl2_pos)]
      · have h1 : phase_inc ≤ sl2 * P.Max_Warp := by
          rw [hincMW]
          exact mul_le_mul_of_nonneg_right hsl2_ms (le_of_lt hMW0)
        have h2 : (1 - s.warped_phase) * sl2 ≤ (1 - s.warped_phase) * sl1 :=
          mul_le_mul_of_nonneg_left (le_of_lt hcase) (le_of_lt ha0)
        nlinarith [hd1_mul]
    have hb : 1 + ((s.warped_phase + d1 - 1) * sl1 - (mid - sl1)) / sl2 -
        s.warped_phase ≤ P.Max_Warp := by linarith
    exact ⟨by linarith, fun _ => hb⟩
  · -- down sweep, no overshoot
    dsimp only
    exact ⟨by linarith, fun _ => by linarith⟩
  · -- flat at -1 (warped_phase = 1, phase still short of the midpoint)
    dsimp only
    rcases c1 with h | h
    · exact absurd h c2
    · exact ⟨by linarith [h.1], fun hne => absurd h.1 hne⟩
  · -- re-entry from the flat, overshoot past 2: impossible, the catch-up
    -- and the increment are each at most Max_Warp <= 1/4
    exfalso
    linarith
  · exfalso
    linarith
  · -- re-entry from the flat, still inside the up sweep: the 2*Max_Warp case
    dsimp only
    exact ⟨by linarith, fun hne => absurd weq1 hne⟩
  · -- up sweep, overshoot, lands in the flat part (snap to 2)
    dsimp only
    exact ⟨by linarith, fun _ => by linarith⟩
  · -- up sweep, overshoot past the whole flat part into the next down sweep
    dsimp only
    have hfl : 0 ≤ 2 - (mid + sl2) := by linarith
    push_neg at sn2
    have hinc_pos : 0 < phase_inc := by
      rcases lt_or_eq_of_le hinc with h | h
      · exact h
      · exfalso
        rcases eq_or_lt_of_le hsl2_nn with hs0 | hs0
        · rw [← hs0] at sn2
          simp at sn2
          linarith
        · have hd20 : d2 = 0 := by
            rw [hd2_def, ← h, divmin_num_zero _ _ (ne_of_gt hs0) (le_of_lt hMW0)]
          rw [hd20] at ov2
          linarith
    have hms_pos : 0 < ms := by
      rw [hms_def]
      positivity
    have hsl1_pos : 0 < sl1 := lt_of_lt_of_le hms_pos hsl1_ms
    have ha0 : 0 < 2 - s.warped_phase := by linarith
    have had : 2 - s.warped_phase < d2 := by linarith
    have hkey : ((s.warped_phase + d2 - 2) * sl2 - (2 - (mid + sl2))) / sl1 ≤
        P.Max_Warp - (2 - s.warped_phase) := by
      rw [div_le_iff₀ hsl1_pos]
      rcases le_or_lt sl2 sl1 with hcase | hcase
      · nlinarith [mul_nonneg (by linarith : (0 : ℚ) ≤ d2 - (2 - s.warped_phase))
            (by linarith : (0 : ℚ) ≤ sl1 - sl2),
          mul_nonneg (by linarith : (0 : ℚ) ≤ P.Max_Warp - d2) (le_of_lt hsl1_pos)]
      · have h1 : phase_inc ≤ sl1 * P.Max_Warp := by
          rw [hincMW]
          exact mul_le_mul_of_nonneg_right hsl1_ms (le_of_lt hMW0)
        have h2 : (2 - s.warped_phase) * sl1 ≤ (2 - s.warped_phase) * sl2 :=
          mul_le_mul_of_nonneg_left (le_of_lt hcase) (le_of_lt ha0)
        nlinarith [hd2_mul]
    have hb : 2 + ((s.warped_phase + d2 - 2) * sl2 - (2 - (mid + sl2))) / sl1 -
        s.warped_phase ≤ P.Max_Warp := by linarith
    exact ⟨by linarith, fun _ => hb⟩
  · -- up sweep, no overshoot
    dsimp only
    exact ⟨by linarith, fun _ => by linarith⟩
  · -- flat at +1 (warped_phase has reached 2)
    dsimp only
    push_neg at w2a
    exact ⟨by linarith, fun _ => by linarith⟩

theorem armA_warped (P : Params) (fin : ℚ) (trig : Bool) (s : OscState) :
    (armA P fin trig s).warped_phase = s.warped_phase := by
  unfold armA
  rw [hsAdvance_warped, armState_warped]

theorem GET_CLIP_bounds (x : ℚ) : 0 ≤ GET_CLIP x ∧ GET_CLIP x ≤ 1 := by
  have h := Clamp_bounds x 0 1 (by norm_num)
  unfold GET_CLIP
  constructor <;> linarith [h.1, h.2]

theorem hsFreq_nonneg (P : Params) (hP : P.valid) (f : ℚ) (s : OscState)
    (hf : 0 ≤ f) : 0 ≤ hsFreq P f s := by
  obtain ⟨hsr, hM4, -, -, hmwf, -, hlt, -, -, hcos⟩ := hP
  have hmwf0 : 0 < P.Max_Warp_Freq := by
    rw [hmwf]
    positivity
  unfold hsFreq
  split_ifs with h
  · obtain ⟨hc1, hc2⟩ := hcos s.hardsync_phase
    nlinarith [mul_nonneg (by linarith : (0 : ℚ) ≤ 1 - 1 / 2 * (1 - P.cosfn s.hardsync_phase)) hf,
      mul_nonneg (by linarith : (0 : ℚ) ≤ 1 / 2 * (1 - P.cosfn s.hardsync_phase))
        (by linarith : (0 : ℚ) ≤ P.Max_Sync_Freq)]
  · exact hf

/-- Claim C2, as stated, is false: on the flat re-entry sample
(`warped_phase = 1` with `phase` past the midpoint) the catch-up
assignment and the sweep increment each advance by `Max_Warp`, for a
total advance of `2 * Max_Warp` in one sample.  Concretely at the test
construction with `freq = 100 < Max_Warp_Freq`, `clip_in = 1`,
`skew_in = 0`, state `(phase, warped) = (1 + 1/240, 1)`. -/
theorem C2_warp_ceiling_cex :
    effFreq P0 100 false ⟨1 + 1 / 240, 1, 0, 0⟩ < P0.Max_Warp_Freq ∧
    (segmentStep P0 (GET_CLIP 1) (GET_SKEW 0)
          (effInc P0 100 false ⟨1 + 1 / 240, 1, 0, 0⟩)
          (armA P0 100 false ⟨1 + 1 / 240, 1, 0, 0⟩)).2.warped_phase -
        (⟨1 + 1 / 240, 1, 0, 0⟩ : OscState).warped_phase = 2 * P0.Max_Warp ∧
    ¬((segmentStep P0 (GET_CLIP 1) (GET_SKEW 0)
          (effInc P0 100 false ⟨1 + 1 / 240, 1, 0, 0⟩)
          (armA P0 100 false ⟨1 + 1 / 240, 1, 0, 0⟩)).2.warped_phase -
        (⟨1 + 1 / 240, 1, 0, 0⟩ : OscState).warped_phase ≤ P0.Max_Warp) := by
  refine ⟨?_, ?_, ?_⟩ <;>
    norm_num [segmentStep, effFreq, effInc, armA, armState, hsFreq, hsAdvance,
      GET_FREQ, GET_CLIP, GET_SKEW, Clamp, divmin, min_def, max_def, P0]

/-- Claim C2 (amended): for every sample routed through the segment
logic (effective frequency below `Max_Warp_Freq`), the total
warped-phase advance is at most `2 * Max_Warp`, and at most `Max_Warp`
whenever the sample does not re-enter the up sweep from the flat segment
(`warped_phase ≠ 1`); in the re-entry case the flat catch-up and the
sweep increment each contribute at most `Max_Warp`. -/
theorem C2_warp_ceiling_amended (P : Params) (hP : P.valid) (fin cin kin : ℚ)
    (trig : Bool) (s : OscState) (hw0 : 0 ≤ s.warped_phase)
    (hw2 : s.warped_phase ≤ 2) (hseg : effFreq P fin trig s < P.Max_Warp_Freq) :
    (segmentStep P (GET_CLIP cin) (GET_SKEW kin) (effInc P fin trig s)
        (armA P fin trig s)).2.warped_phase - s.warped_phase ≤ 2 * P.Max_Warp ∧
    (s.warped_phase ≠ 1 →
      (segmentStep P (GET_CLIP cin) (GET_SKEW kin) (effInc P fin trig s)
          (armA P fin trig s)).2.warped_phase - s.warped_phase ≤ P.Max_Warp) := by
  have hc := GET_CLIP_bounds cin
  have hsr := hP.1
  have hM4 := hP.2.1
  have hmaxp := hP.2.2.2.1
  have hmwf := hP.2.2.2.2.1
  have hM0 : (0 : ℚ) < P.Min_Sweep := by linarith
  have hf2nn : 0 ≤ effFreq P fin trig s := by
    unfold effFreq
    exact hsFreq_nonneg P hP _ _ (le_max_right fin 0)
  have hincnn : 0 ≤ effInc P fin trig s := by
    unfold effInc
    apply mul_nonneg _ hf2nn
    rw [hmaxp]
    positivity
  have hms1 : effInc P fin trig s * P.Min_Sweep ≤ 1 := by
    have hlt : effFreq P fin trig s * (2 * P.Min_Sweep) < P.sr := by
      rw [hmwf] at hseg
      exact (lt_div_iff₀ (by positivity)).mp hseg
    unfold effInc
    rw [hmaxp]
    have heq : 2 / P.sr * effFreq P fin trig s * P.Min_Sweep =
        effFreq P fin trig s * (2 * P.Min_Sweep) / P.sr := by
      field_simp
      ring
    rw [heq, div_le_one hsr]
    linarith
  have h := segment_advance P hP (GET_CLIP cin) (GET_SKEW kin)
    (effInc P fin trig s) (armA P fin trig s) hc.1 hc.2 hincnn hms1
    (by rw [armA_warped]; exact hw0) (by rw [armA_warped]; exact hw2)
  rw [armA_warped] at h
  exact h

/-- Witness for C2 (amended) at the counterexample sample itself: the
advance there is within `2 * Max_Warp`. -/
theorem C2_warp_ceiling_witness :
    ((0 : ℚ) ≤ 1 ∧ (1 : ℚ) ≤ 2 ∧
      effFreq P0 100 false ⟨1 + 1 / 240, 1, 0, 0⟩ < P0.Max_Warp_Freq) ∧
    (segmentStep P0 (GET_CLIP 1) (GET_SKEW 0)
        (effInc P0 100 false ⟨1 + 1 / 240, 1, 0, 0⟩)
        (armA P0 100 false ⟨1 + 1 / 240, 1, 0, 0⟩)).2.warped_phase -
      (⟨1 + 1 / 240, 1, 0, 0⟩ : OscState).warped_phase ≤ 2 * P0.Max_Warp := by
  have hf : effFreq P0 100 false ⟨1 + 1 / 240, 1, 0, 0⟩ < P0.Max_Warp_Freq := by
    norm_num [effFreq, armState, hsFreq, GET_FREQ, P0]
  exact ⟨⟨by norm_num, by norm_num, hf⟩,
    (C2_warp_ceiling_amended P0 P0_valid 100 1 0 false ⟨1 + 1 / 240, 1, 0, 0⟩
      (by norm_num) (by norm_num) hf).1⟩

/-! ## C1: the phase bound invariant -/

set_option maxHeartbeats 1600000 in
/-- The segment logic keeps `warped_phase` in `[0, 2]` except for the
single overshoot-into-the-next-sweep case, where both accumulators land
at or past 2 together (so the wraparound block fires and rebases them);
`phase + phase_inc` (the value `phase` takes after the unconditional
advance) never goes negative. -/
theorem segment_bounds (P : Params) (hP : P.valid) (clip skew phase_inc : ℚ)
    (s : OscState) (hc1 : clip ≤ 1) (hinc : 0 ≤ phase_inc)
    (hms1 : phase_inc * P.Min_Sweep ≤ 1) (hw0 : 0 ≤ s.warped_phase)
    (hw2 : s.warped_phase ≤ 2) (hp0 : 0 ≤ s.phase) :
    0 ≤ (segmentStep P clip skew phase_inc s).2.warped_phase ∧
    0 ≤ (segmentStep P clip skew phase_inc s).2.phase + phase_inc ∧
    ((segmentStep P clip skew phase_inc s).2.warped_phase ≤ 2 ∨
      (2 ≤ (segmentStep P clip skew phase_inc s).2.warped_phase ∧
        2 ≤ (segmentStep P clip skew phase_inc s).2.phase + phase_inc)) := by
  obtain ⟨hsr, hM4, -, -, -, hmw, -, -, -, -⟩ := hP
  have hM0 : (0 : ℚ) < P.Min_Sweep := by linarith
  have hMW0 : 0 < P.Max_Warp := by
    rw [hmw]
    positivity
  have hMW4 : P.Max_Warp ≤ 1 / 4 := by
    rw [hmw]
    rw [div_le_div_iff₀ hM0 (by norm_num)]
    linarith
  simp only [segmentStep]
  set ms := phase_inc * P.Min_Sweep with hms_def
  set mid := Clamp skew ms (2 - ms) with hmid_def
  set sl1 := max (clip * mid) ms with hsl1_def
  set sl2 := max (clip * (2 - mid)) ms with hsl2_def
  set d1 := divmin phase_inc sl1 P.Max_Warp with hd1_def
  set d2 := divmin phase_inc sl2 P.Max_Warp with hd2_def
  set r := divmin (min (s.phase - mid) phase_inc) sl2 P.Max_Warp with hr_def
  have hms_nn : 0 ≤ ms := mul_nonneg hinc (le_of_lt hM0)
  have hincms : phase_inc ≤ ms := by
    rw [hms_def]
    nlinarith [mul_nonneg hinc (show (0 : ℚ) ≤ P.Min_Sweep - 1 by linarith)]
  have hmid_rng : ms ≤ mid ∧ mid ≤ 2 - ms := Clamp_bounds skew ms (2 - ms) (by linarith)
  have hmid0 : 0 ≤ mid := le_trans hms_nn hmid_rng.1
  have hsl1_ms : ms ≤ sl1 := le_max_right _ _
  have hsl1_nn : 0 ≤ sl1 := le_trans hms_nn hsl1_ms
  have hsl1_mid : sl1 ≤ mid :=
    max_le (mul_le_of_le_one_left hmid0 hc1) hmid_rng.1
  have hsl2_ms : ms ≤ sl2 := le_max_right _ _
  have hsl2_nn : 0 ≤ sl2 := le_trans hms_nn hsl2_ms
  have hsl2_2mid : sl2 ≤ 2 - mid :=
    max_le (mul_le_of_le_one_left (by linarith) hc1) (by linarith [hmid_rng.2])
  have hd1_nn : 0 ≤ d1 := divmin_nonneg _ _ _ hinc hsl1_nn (le_of_lt hMW0)
  have hd1_cap : d1 ≤ P.Max_Warp := divmin_le_cap _ _ _
  have hd1_mul : d1 * sl1 ≤ phase_inc := divmin_mul_le _ _ _ hinc hsl1_nn
  have hd2_nn : 0 ≤ d2 := divmin_nonneg _ _ _ hinc hsl2_nn (le_of_lt hMW0)
  have hd2_cap : d2 ≤ P.Max_Warp := divmin_le_cap _ _ _
  have hd2_mul : d2 * sl2 ≤ phase_inc := divmin_mul_le _ _ _ hinc hsl2_nn
  have hr_cap : r ≤ P.Max_Warp := divmin_le_cap _ _ _
  clear_value ms mid sl1 sl2 d1 d2 r
  split_ifs with c1 c2 c3 c4 w2a weq1 ov1 sn1 ov2 sn2
  · -- down sweep, overshoot, snap to 1
    dsimp only
    have hpo : 0 ≤ (s.warped_phase + d1 - 1) * sl1 :=
      mul_nonneg (by linarith) hsl1_nn
    exact ⟨by norm_num, by linarith, Or.inl (by norm_num)⟩
  · -- down sweep, overshoot into the up sweep
    dsimp only
    have hfl : 0 ≤ mid - sl1 := by linarith
    push_neg at c4
    have hinc_pos : 0 < phase_inc := by
      rcases lt_or_eq_of_le hinc with h | h
      · exact h
      · exfalso
        rcases eq_or_lt_of_le hsl1_nn with hs0 | hs0
        · rw [← hs0] at c4
          simp at c4
          linarith
        · have hd10 : d1 = 0 := by
            rw [hd1_def, ← h, divmin_num_zero _ _ (ne_of_gt hs0) (le_of_lt hMW0)]
          rw [hd10] at c3
          linarith
    have hms_pos : 0 < ms := by
      rw [hms_def]
      positivity
    have hsl2_pos : 0 < sl2 := lt_of_lt_of_le hms_pos hsl2_ms
    have hpo_d1 : (s.warped_phase + d1 - 1) * sl1 ≤ d1 * sl1 :=
      mul_le_mul_of_nonneg_right (by linarith) hsl1_nn
    have hdiv_nn : 0 ≤ ((s.warped_phase + d1 - 1) * sl1 - (mid - sl1)) / sl2 :=
      div_nonneg (by linarith) (le_of_lt hsl2_pos)
    have hdiv_le : ((s.warped_phase + d1 - 1) * sl1 - (mid - sl1)) / sl2 ≤ 1 := by
      rw [div_le_one hsl2_pos]
      linarith
    have hpo : 0 ≤ (s.warped_phase + d1 - 1) * sl1 :=
      mul_nonneg (by linarith) hsl1_nn
    exact ⟨by linarith, by linarith, Or.inl (by linarith)⟩
  · -- down sweep, no overshoot
    dsimp only
    exact ⟨by linarith, by linarith, Or.inl (by linarith)⟩
  · -- flat at -1
    dsimp only
    exact ⟨by norm_num, by linarith, Or.inl (by norm_num)⟩
  · -- re-entry overshoot past 2: impossible
    exfalso
    linarith
  · exfalso
    linarith
  · -- re-entry, still inside the up sweep
    dsimp only
    push_neg at c1
    have hr_nn : 0 ≤ r := by
      rw [hr_def]
      exact divmin_nonneg _ _ _ (le_min (by linarith [c1.2 weq1]) hinc) hsl2_nn
        (le_of_lt hMW0)
    exact ⟨by linarith, by linarith, Or.inl (by linarith)⟩
  · -- up sweep, overshoot, snap to 2
    dsimp only
    have hpo : 0 ≤ (s.warped_phase + d2 - 2) * sl2 :=
      mul_nonneg (by linarith) hsl2_nn
    exact ⟨by norm_num, by linarith, Or.inl (by norm_num)⟩
  · -- up sweep, overshoot into the next cycle: both accumulators pass 2
    dsimp only
    push_neg at sn2
    have hinc_pos : 0 < phase_inc := by
      rcases lt_or_eq_of_le hinc with h | h
      · exact h
      · exfalso
        rcases eq_or_lt_of_le hsl2_nn with hs0 | hs0
        · rw [← hs0] at sn2
          simp at sn2
          linarith
        · have hd20 : d2 = 0 := by
            rw [hd2_def, ← h, divmin_num_zero _ _ (ne_of_gt hs0) (le_of_lt hMW0)]
          rw [hd20] at ov2
          linarith
    have hms_pos : 0 < ms := by
      rw [hms_def]
      positivity
    have hsl1_pos : 0 < sl1 := lt_of_lt_of_le hms_pos hsl1_ms
    have hdiv_nn : 0 ≤ ((s.warped_phase + d2 - 2) * sl2 - (2 - (mid + sl2))) / sl1 :=
      div_nonneg (by linarith) (le_of_lt hsl1_pos)
    exact ⟨by linarith, by linarith, Or.inr ⟨by linarith, by linarith⟩⟩
  · -- up sweep, no overshoot
    dsimp only
    push_neg at c1
    exact ⟨by linarith [c1.1], by linarith, Or.inl (by linarith)⟩
  · -- flat at +1
    dsimp only
    exact ⟨by norm_num, by linarith, Or.inl (by norm_num)⟩

theorem hsFreq_le_sr (P : Params) (hP : P.valid) (f : ℚ) (s : OscState)
    (hf : f ≤ P.sr) : hsFreq P f s ≤ P.sr := by
  obtain ⟨-, -, -, -, -, -, -, hle, -, hcos⟩ := hP
  unfold hsFreq
  split_ifs with h
  · obtain ⟨hc1, hc2⟩ := hcos s.hardsync_phase
    nlinarith [mul_nonneg (by linarith : (0 : ℚ) ≤ 1 - 1 / 2 * (1 - P.cosfn s.hardsync_phase))
        (by linarith : (0 : ℚ) ≤ P.sr - f),
      mul_nonneg (by linarith : (0 : ℚ) ≤ 1 / 2 * (1 - P.cosfn s.hardsync_phase))
        (by linarith : (0 : ℚ) ≤ P.sr - P.Max_Sync_Freq)]
  · exact hf

theorem hsAdvance_phase (P : Params) (s : OscState) :
    (hsAdvance P s).phase = s.phase := by
  unfold hsAdvance
  split_ifs <;> rfl

theorem armState_phase (P : Params) (fin : ℚ) (trig : Bool) (s : OscState) :
    (armState P fin trig s).phase = s.phase ∨ (armState P fin trig s).phase = 2 := by
  unfold armState hardsync_init
  split_ifs <;> first | exact Or.inl rfl | exact Or.inr rfl

theorem armA_phase_nonneg (P : Params) (fin : ℚ) (trig : Bool) (s : OscState)
    (hp : 0 ≤ s.phase) : 0 ≤ (armA P fin trig s).phase := by
  unfold armA
  rw [hsAdvance_phase]
  rcases armState_phase P fin trig s with h | h <;> rw [h]
  · exact hp
  · norm_num

/-- `preWrap` in the segment branch (effective frequency below
`Max_Warp_Freq`). -/
theorem preWrap_seg (P : Params) (fin cin kin : ℚ) (trig : Bool) (s : OscState)
    (hseg : effFreq P fin trig s < P.Max_Warp_Freq) :
    preWrap P fin cin kin trig s =
      ((segmentStep P (GET_CLIP cin) (GET_SKEW kin) (effInc P fin trig s)
          (armA P fin trig s)).1,
       { (segmentStep P (GET_CLIP cin) (GET_SKEW kin) (effInc P fin trig s)
            (armA P fin trig s)).2 with
         phase := (segmentStep P (GET_CLIP cin) (GET_SKEW kin) (effInc P fin trig s)
            (armA P fin trig s)).2.phase + effInc P fin trig s },
       effFreq P fin trig s) := by
  have hn : ¬(P.Max_Warp_Freq ≤ hsFreq P (GET_FREQ fin) (armState P fin trig s)) :=
    not_le.mpr hseg
  simp only [preWrap, if_neg hn, armA, effInc, effFreq]

/-- Claim C1, as stated, is false in two ways.  A frequency above `2*sr`
leaves both accumulators above 2 even after the wraparound (state
`(0,0)` at `freq = 144000`, `sr = 48000` ends at `phase = warped = 4`).
And in the segment path a mid-cycle `midpoint` change can leave `phase`
above 2 for many samples with no wraparound (state `(2, 3/2)` at
`freq = 240` ends at `phase = 2.01` with `warped = 1.51 < 2`), the
wraparound requiring both accumulators past 2. -/
theorem C1_phase_bounds_cex :
    (2 < (step P0 144000 0 0 false ⟨0, 0, 0, 0⟩).2.1.warped_phase ∧
      2 < (step P0 144000 0 0 false ⟨0, 0, 0, 0⟩).2.1.phase) ∧
    (GET_FREQ 240 ≤ P0.sr ∧
      2 < (step P0 240 0 0 false ⟨2, 3 / 2, 0, 0⟩).2.1.phase ∧
      (step P0 240 0 0 false ⟨2, 3 / 2, 0, 0⟩).2.1.warped_phase < 2) := by
  refine ⟨⟨?_, ?_⟩, ?_, ?_, ?_⟩ <;>
    norm_num [step, preWrap, wrapPhase, pureStep, segmentStep, armState, armA,
      hsFreq, hsAdvance, hardsync_init, GET_FREQ, GET_CLIP, GET_SKEW, Clamp,
      divmin, min_def, max_def, P0]

/-- Claim C1 (amended): for every per-sample input with resolved
frequency at most `sr`, one step preserves `0 ≤ phase`,
`0 ≤ warped_phase` and `warped_phase ≤ 2`.  (The upper bound
`phase ≤ 2` holds through the pure-sine path but not in general in the
segment path, and `warped_phase ≤ 2` needs the frequency bound.) -/
theorem C1_phase_bounds_amended (P : Params) (hP : P.valid) (fin cin kin : ℚ)
    (trig : Bool) (s : OscState) (h0p : 0 ≤ s.phase) (h0w : 0 ≤ s.warped_phase)
    (h2w : s.warped_phase ≤ 2) (hf : GET_FREQ fin ≤ P.sr) :
    0 ≤ (step P fin cin kin trig s).2.1.phase ∧
    0 ≤ (step P fin cin kin trig s).2.1.warped_phase ∧
    (step P fin cin kin trig s).2.1.warped_phase ≤ 2 := by
  have hsr := hP.1
  have hM4 := hP.2.1
  have hmaxp := hP.2.2.2.1
  have hmw := hP.2.2.2.2.2.1
  have hM0 : (0 : ℚ) < P.Min_Sweep := by linarith
  have hMW0 : 0 < P.Max_Warp := by
    rw [hmw]
    positivity
  have hMW4 : P.Max_Warp ≤ 1 / 4 := by
    rw [hmw]
    rw [div_le_div_iff₀ hM0 (by norm_num)]
    linarith
  have hf2nn : 0 ≤ effFreq P fin trig s := by
    unfold effFreq
    exact hsFreq_nonneg P hP _ _ (le_max_right fin 0)
  have hf2sr : effFreq P fin trig s ≤ P.sr := by
    unfold effFreq
    exact hsFreq_le_sr P hP _ _ hf
  have hincnn : 0 ≤ effInc P fin trig s := by
    unfold effInc
    apply mul_nonneg _ hf2nn
    rw [hmaxp]
    positivity
  have hinc2 : effInc P fin trig s ≤ 2 := by
    unfold effInc
    rw [hmaxp]
    rw [div_mul_eq_mul_div, div_le_iff₀ hsr]
    linarith
  rcases le_or_lt P.Max_Warp_Freq (effFreq P fin trig s) with hpure | hseg
  · -- pure-sine branch
    rw [step_pure_form P fin cin kin trig s hpure]
    split_ifs with hW hhs hwild
    · exact ⟨le_refl 0, le_refl 0, by norm_num⟩
    · dsimp only
      refine ⟨by linarith, by linarith, by linarith⟩
    · dsimp only
      refine ⟨by linarith, by linarith, by linarith⟩
    · dsimp only
      push_neg at hW
      refine ⟨by linarith, by linarith, by linarith⟩
  · -- segment branch
    have hms1 : effInc P fin trig s * P.Min_Sweep ≤ 1 := by
      have hmwf := hP.2.2.2.2.1
      have hlt : effFreq P fin trig s * (2 * P.Min_Sweep) < P.sr := by
        rw [hmwf] at hseg
        exact (lt_div_iff₀ (by positivity)).mp hseg
      unfold effInc
      rw [hmaxp]
      have heq : 2 / P.sr * effFreq P fin trig s * P.Min_Sweep =
          effFreq P fin trig s * (2 * P.Min_Sweep) / P.sr := by
        field_simp
        ring
      rw [heq, div_le_one hsr]
      linarith
    have hc := GET_CLIP_bounds cin
    obtain ⟨hb1, hb2, hb3⟩ := segment_bounds P hP (GET_CLIP cin) (GET_SKEW kin)
      (effInc P fin trig s) (armA P fin trig s) hc.2 hincnn hms1
      (by rw [armA_warped]; exact h0w) (by rw [armA_warped]; exact h2w)
      (armA_phase_nonneg P fin trig s h0p)
    have hincnn' : 0 ≤ P.Maxphase_By_sr * effFreq P fin trig s := hincnn
    rw [step_decomp, preWrap_seg P fin cin kin trig s hseg]
    dsimp only
    simp only [wrapPhase]
    split_ifs with hC hhs hlt
    · exact ⟨le_refl 0, le_refl 0, by norm_num⟩
    · -- wrap with the wild-aliasing reset, new-cycle rebase
      dsimp only
      refine ⟨by linarith, ?_, ?_⟩
      · refine divmin_nonneg _ _ _ (by linarith) ?_ (le_of_lt hMW0)
        exact le_trans (mul_nonneg hincnn' (le_of_lt hM0)) (le_max_right _ _)
      · exact le_trans (divmin_le_cap _ _ _) (by linarith)
    · -- ordinary wrap, new-cycle rebase
      dsimp only
      refine ⟨by linarith [hC.2], ?_, ?_⟩
      · refine divmin_nonneg _ _ _ (by linarith [hC.2]) ?_ (le_of_lt hMW0)
        exact le_trans (mul_nonneg hincnn' (le_of_lt hM0)) (le_max_right _ _)
      · exact le_trans (divmin_le_cap _ _ _) (by linarith)
    · -- no wraparound this sample
      dsimp only
      rcases hb3 with h | h
      · exact ⟨by linarith, hb1, h⟩
      · exact absurd ⟨h.1, h.2⟩ hC

/-- Witness for C1 (amended) at the concrete construction: a segment
sample from state `(1/2, 1/2)` at `freq = 240` stays in bounds. -/
theorem C1_phase_bounds_witness :
    ((0 : ℚ) ≤ 1 / 2 ∧ (0 : ℚ) ≤ 1 / 2 ∧ (1 / 2 : ℚ) ≤ 2 ∧ GET_FREQ 240 ≤ P0.sr) ∧
    (0 ≤ (step P0 240 0 0 false ⟨1 / 2, 1 / 2, 0, 0⟩).2.1.phase ∧
      0 ≤ (step P0 240 0 0 false ⟨1 / 2, 1 / 2, 0, 0⟩).2.1.warped_phase ∧
      (step P0 240 0 0 false ⟨1 / 2, 1 / 2, 0, 0⟩).2.1.warped_phase ≤ 2) := by
  have hf : GET_FREQ 240 ≤ P0.sr := by norm_num [GET_FREQ, P0]
  exact ⟨⟨by norm_num, by norm_num, by norm_num, hf⟩,
    C1_phase_bounds_amended P0 P0_valid 240 0 0 false ⟨1 / 2, 1 / 2, 0, 0⟩
      (by norm_num) (by norm_num) (by norm_num) hf⟩

end Squinewave
